import Mathlib

/-!
Verification of the narou-py Aozora text converter
(`src/narou_py/aozora/text_converter_mixin.py`).

Strings are modelled as `List Char` (`Str`).  Python regular-expression
substitutions are modelled by hand-written scanners that mirror the exact
left-to-right, leftmost-match semantics of `re.sub`, and `str.replace` is
modelled by `replaceStr`.  Scanners that are not structurally recursive use a
fuel argument; the fuel is always at least the length of the input, and each
step consumes at least one input character, so the fuel never runs out.

Python `\d` matches all Unicode decimal digits; in this development it is
modelled by the two ranges that occur in this code base, the ASCII digits
0-9 and the full-width digits U+FF10-U+FF19.
-/

set_option maxRecDepth 10000

abbrev Str := List Char

def toL (s : String) : Str := s.toList

/-- The character set of Python `strip(' 　\t')` used throughout the converter:
ASCII space, full-width space U+3000, and tab. -/
def isSpHT (c : Char) : Bool := c = ' ' || c = '　' || c = '\t'

/-- Python whitespace class `\s` (restricted to the characters that can occur
here: ASCII whitespace controls and the full-width space). -/
def isPyWS (c : Char) : Bool :=
  c = ' ' || c = '\t' || c = '\n' || c = '\r' ||
  c = Char.ofNat 11 || c = Char.ofNat 12 || c = '　'

/-- Python `\d` (Unicode decimal digit), restricted to the ASCII and
full-width digit ranges. -/
def isPyDigit (c : Char) : Bool :=
  ('0' ≤ c && c ≤ '9') || ('０' ≤ c && c ≤ '９')

def lstripHT (l : Str) : Str := l.dropWhile isSpHT

def rstripHT (l : Str) : Str := (l.reverse.dropWhile isSpHT).reverse

/-- Python `line.strip(' 　\t')`. -/
def stripHT (l : Str) : Str := rstripHT (lstripHT l)

/-- Split on the newline character, Python `str.split('\n')` semantics:
the empty string yields `[""]`, a trailing newline yields a trailing `""`. -/
def splitNL : Str → List Str
  | [] => [[]]
  | c :: cs =>
    if c = '\n' then [] :: splitNL cs
    else
      match splitNL cs with
      | [] => [[c]]
      | l :: ls => (c :: l) :: ls

/-- Join lines with a newline character, Python `'\n'.join`. -/
def joinNL : List Str → Str
  | [] => []
  | [l] => l
  | l :: ls => l ++ '\n' :: joinNL ls

/-- One scanning step list for Python `str.replace`: left-to-right,
non-overlapping.  `p` is nonempty at every call site. -/
def replaceGo (p r : Str) : Nat → Str → Str
  | 0, s => s
  | _ + 1, [] => []
  | n + 1, c :: cs =>
    if p.isPrefixOf (c :: cs) then r ++ replaceGo p r n (List.drop (p.length - 1) cs)
    else c :: replaceGo p r n cs

/-- Python `str.replace(p, r)` for a nonempty pattern `p`. -/
def replaceStr (p r s : Str) : Str := replaceGo p r s.length s

/-- Whether `p` occurs as a contiguous substring of `s`. -/
def occursIn (p s : Str) : Bool :=
  match s with
  | [] => p.isPrefixOf ([] : Str)
  | _ :: cs => p.isPrefixOf s || occursIn p cs

/-!  ### Blank-line / border-line packing (`_pack_blank_lines`)  -/

/-- `_normalize_border_line`: a line made solely of at least five `＊`/`*`
characters, or solely of decorative characters, is a border line. -/
def normalizeBorderLine (line : Str) : Option Str :=
  let s := stripHT line
  if s = [] then none
  else if 5 ≤ s.length && s.all (fun c => c = '＊' || c = '*') then
    some (s.map fun c => if c = '*' then '＊' else c)
  else if s.all (fun c =>
      c = '◆' || c = '◇' || c = '■' || c = '□' ||
      c = '●' || c = '○' || c = '★' || c = '☆') then
    some s
  else none

structure PackSt where
  packed : List Str
  blankRun : Nat
  prevBorder : Bool
deriving Repr, DecidableEq

/-- `append_blanks` count for a blank run followed by a border line or seen
after a border line: 1 for runs of length 1 or 3, else 2. -/
def borderBlankCount (blankRun : Nat) : Nat :=
  if blankRun = 1 || blankRun = 3 then 1 else 2

/-- The loop body of `_pack_blank_lines`, processing one input line.
`packed[-1] != ''` is modelled by `getLast? ≠ some []`; in the branch where
Python evaluates it the list is provably nonempty. -/
def processLine (st : PackSt) (line : Str) : PackSt :=
  if stripHT line = [] then { st with blankRun := st.blankRun + 1 }
  else
    match normalizeBorderLine line with
    | some border =>
      let packed :=
        if 0 < st.blankRun then
          st.packed ++ List.replicate (borderBlankCount st.blankRun) []
        else if st.packed ≠ [] && st.packed.getLast? != some [] then
          st.packed ++ [[]]
        else st.packed
      { packed := packed ++ [List.replicate 4 '　' ++ border],
        blankRun := 0, prevBorder := true }
    | none =>
      let packed :=
        if st.packed = [] && 1 ≤ st.blankRun then
          st.packed ++ [[]]
        else if st.prevBorder && 1 ≤ st.blankRun then
          st.packed ++ List.replicate (borderBlankCount st.blankRun) []
        else if 2 ≤ st.blankRun && st.packed.getLast? != some [] then
          st.packed ++ [[]]
            ++ (if 4 ≤ st.blankRun then [[]] else [])
            ++ (if 8 ≤ st.blankRun then [[]] else [])
            ++ (if 10 ≤ st.blankRun then [[]] else [])
        else st.packed
      { packed := packed ++ [rstripHT line], blankRun := 0, prevBorder := false }

def dropTrailingEmpties (ls : List Str) : List Str :=
  (ls.reverse.dropWhile (fun l => l = [])).reverse

/-- `_pack_blank_lines`. -/
def packBlankLines (text : Str) : Str :=
  let lines := splitNL text
  let st := lines.foldl processLine ⟨[], 0, false⟩
  let packed := dropTrailingEmpties st.packed
  let result := joinNL packed
  replaceStr (toL "\n？」") (toL "？」")
    (replaceStr (toL "\n！」") (toL "！」") result)

/-!  ### Text kinds and character tables  -/

inductive TextKind where
  | title | story | chapter | subtitle | introduction | postscript | body | textfile
deriving Repr, DecidableEq

def kanjiNumChars : Str := toL "〇一二三四五六七八九"

def zenkakuNumChars : Str := toL "０１２３４５６７８９"

def hwDigitIdx? (c : Char) : Option Nat :=
  if '0' ≤ c ∧ c ≤ '9' then some (c.toNat - '0'.toNat) else none

def fwDigitIdx? (c : Char) : Option Nat :=
  if '０' ≤ c ∧ c ≤ '９' then some (c.toNat - '０'.toNat) else none

/-- The character map of `_digits_to_kanji`
(`str.maketrans('0123456789０１２３４５６７８９', kanji twice)`). -/
def digitToKanji (c : Char) : Char :=
  match hwDigitIdx? c with
  | some i => kanjiNumChars.getD i c
  | none =>
    match fwDigitIdx? c with
    | some i => kanjiNumChars.getD i c
    | none => c

/-- `_digits_to_kanji`. -/
def digitsToKanji (s : Str) : Str := s.map digitToKanji

/-- `str.maketrans('0123456789', cls._ZENKAKU_NUM)` used in
`_hankaku_num_to_zenkaku_num`. -/
def hwToZenkakuDigit (c : Char) : Char :=
  match hwDigitIdx? c with
  | some i => zenkakuNumChars.getD i c
  | none => c

def isKanjiDigit (c : Char) : Bool := kanjiNumChars.contains c

/-- `str.maketrans(cls._KANJI_NUM, cls._ZENKAKU_NUM)`. -/
def kanjiToZenkakuDigit (c : Char) : Char :=
  match kanjiNumChars.indexOf? c with
  | some i => zenkakuNumChars.getD i c
  | none => c

/-- `str.maketrans` of the ASCII alphabet to the full-width alphabet
(`_ALPHABET_TABLE`). -/
def alphaToZenkakuChar (c : Char) : Char :=
  if 'a' ≤ c ∧ c ≤ 'z' then Char.ofNat (0xFF41 + c.toNat - 'a'.toNat)
  else if 'A' ≤ c ∧ c ≤ 'Z' then Char.ofNat (0xFF21 + c.toNat - 'A'.toNat)
  else c

/-- `_alphabet_to_zenkaku`. -/
def alphabetToZenkaku (s : Str) : Str := s.map alphaToZenkakuChar

/-- The vertical-mixed-script wrapper `tcy` used by
`_hankaku_num_to_zenkaku_num` and `_convert_tatechuyoko`. -/
def tcy (value : Str) : Str := toL "［＃縦中横］" ++ value ++ toL "［＃縦中横終わり］"

/-!  ### Generic maximal-run substitution

`runSub p T s` mirrors `re.sub` for a pattern that matches maximal runs of
characters satisfying `p` (such as `\d+` or `！+` or `・{3,}`): scanning is
left-to-right, each maximal run is passed to the replacement `T` together
with the characters adjacent to the match in the *original* string
(`match.string[match.start()-1]` / `match.string[match.end()]`) and whether
the match starts at position 0, and scanning resumes after the match. -/

def runSubGo (p : Char → Bool) (T : Str → Option Char → Option Char → Bool → Str) :
    Nat → Option Char → Bool → Str → Str
  | 0, _, _, s => s
  | _ + 1, _, _, [] => []
  | n + 1, left, atStart, c :: cs =>
    if p c then
      let run := c :: cs.takeWhile p
      let rest := cs.dropWhile p
      T run left rest.head? atStart ++ runSubGo p T n run.getLast? false rest
    else c :: runSubGo p T n (some c) false cs

def runSub (p : Char → Bool) (T : Str → Option Char → Option Char → Bool → Str)
    (s : Str) : Str :=
  runSubGo p T s.length none true s

/-!  ### Digit conversion (`_hankaku_num_to_zenkaku_num`, `_convert_numbers`)  -/

/-- The replacement function of `_hankaku_num_to_zenkaku_num`. -/
def hnzRepl (tt : TextKind) (run : Str) (_ _ : Option Char) (atStart : Bool) : Str :=
  if run.length = 2 then tcy run
  else if run.length = 3 ∧ tt = TextKind.subtitle ∧ atStart then tcy run
  else run.map hwToZenkakuDigit

/-- `_hankaku_num_to_zenkaku_num`: `re.sub(r'\d+', repl, text)`. -/
def hankakuNumToZenkakuNum (tt : TextKind) (s : Str) : Str :=
  runSub isPyDigit (hnzRepl tt) s

def isDigitClass (c : Char) : Bool := isPyDigit c || isKanjiDigit c

/-- The first substitution of `_convert_numbers`: both groups of
`([dc]+?)[\.．]([dc]+?)` are non-greedy and match exactly one digit-class
character, so a decimal point flanked by digit-class characters becomes the
nakaten separator. -/
def decimalDotToNakaten : Str → Str
  | [] => []
  | [c] => [c]
  | [c, d] => [c, d]
  | c :: d :: e :: rest =>
    if isDigitClass c ∧ (d = '.' ∨ d = '．') ∧ isDigitClass e then
      c :: '・' :: e :: decimalDotToNakaten rest
    else c :: decimalDotToNakaten (d :: e :: rest)

def isNumComma (c : Char) : Bool := isPyDigit c || c = ',' || c = '，'

def numSentOpen : Char := Char.ofNat 0xE005

def numSentClose : Char := Char.ofNat 0xE006

def numSentBase : Nat := 0xE300

def numBlock (i : Nat) : Str := [numSentOpen, Char.ofNat (numSentBase + i), numSentClose]

def commaNorm (c : Char) : Char := if c = '，' then ',' else c

/-- The `repl` scanner of `_convert_numbers` over `[\d０-９,，]+` runs,
threading the `num_and_comma` accumulator. -/
def numCommaGo : Nat → List Str → Str → Str × List Str
  | 0, acc, s => (s, acc)
  | _ + 1, acc, [] => ([], acc)
  | n + 1, acc, c :: cs =>
    if isNumComma c then
      let run := c :: cs.takeWhile isNumComma
      let rest := cs.dropWhile isNumComma
      if run.any (fun x => x = ',' || x = '，') then
        if run.any isPyDigit then
          let t := numCommaGo n (acc ++ [run.map commaNorm]) rest
          (numBlock acc.length ++ t.1, t.2)
        else
          let t := numCommaGo n acc rest
          (run ++ t.1, t.2)
      else
        let t := numCommaGo n acc rest
        (digitsToKanji run ++ t.1, t.2)
    else
      let t := numCommaGo n acc cs
      (c :: t.1, t.2)

/-- `_convert_numbers`. -/
def convertNumbers (tt : TextKind) (s : Str) : Str × List Str :=
  let text := decimalDotToNakaten s
  if tt = TextKind.subtitle ∨ tt = TextKind.chapter ∨ tt = TextKind.story then
    (hankakuNumToZenkakuNum tt text, [])
  else numCommaGo text.length [] text

/-!  ### `_convert_tatechuyoko`  -/

/-- The replacement for `！+` runs (`bang_repl`). -/
def bangRepl (run : Str) (left right : Option Char) (_ : Bool) : Str :=
  if left = some '？' ∨ right = some '？' then run
  else if run.length = 3 then tcy (toL "!!!")
  else if 4 ≤ run.length then
    let len := if run.length % 2 = 1 then run.length + 1 else run.length
    (List.replicate (len / 2) (tcy (toL "!!"))).flatten
  else run

def bangToAscii (c : Char) : Char :=
  if c = '！' then '!' else if c = '？' then '?' else c

/-- The replacement for `[！？]+` runs (`mixed_repl`). -/
def mixedRepl (run : Str) (_ _ : Option Char) (_ : Bool) : Str :=
  if run.length = 2 then tcy (run.map bangToAscii)
  else if run.length = 3 ∧ (run = toL "！！？" ∨ run = toL "？！！") then
    tcy (run.map bangToAscii)
  else run

def isBangQ (c : Char) : Bool := c = '！' || c = '？'

/-- `_convert_tatechuyoko`. -/
def convertTatechuyoko (s : Str) : Str :=
  runSub isBangQ mixedRepl (runSub (fun c => c = '！') bangRepl s)

/-!  ### `_convert_horizontal_ellipsis`  -/

/-- The replacement for one ellipsis-source character `ch`: runs below the
`{3,}` threshold are not matched by the pattern and stay; matched runs next
to a dash stay; other matched runs fold to `ceil(count/6)*2` `…`. -/
def ellipsisRepl (run : Str) (left right : Option Char) (_ : Bool) : Str :=
  if run.length < 3 then run
  else if left = some '―' ∨ right = some '―' then run
  else List.replicate (((run.length + 5) / 6) * 2) '…'

/-- `_convert_horizontal_ellipsis`. -/
def convertHorizontalEllipsis (s : Str) : Str :=
  let s := runSub (fun c => c = '・') ellipsisRepl s
  let s := runSub (fun c => c = '。') ellipsisRepl s
  let s := runSub (fun c => c = '、') ellipsisRepl s
  let s := runSub (fun c => c = '．') ellipsisRepl s
  let s := replaceStr (toL "。。") (toL "。") s
  replaceStr (toL "、、") (toL "、") s

/-!  ### `_convert_novel_rule`  -/

/-- `re.sub(r'。([」』）])', r'\1', text)`. -/
def novelPeriodBracket : Str → Str
  | [] => []
  | [c] => [c]
  | c :: d :: rest =>
    if c = '。' ∧ (d = '」' ∨ d = '』' ∨ d = '）') then d :: novelPeriodBracket rest
    else c :: novelPeriodBracket (d :: rest)

/-- Odd-length runs of the given ellipsis character get one more appended. -/
def evenOutRepl (run : Str) (_ _ : Option Char) (_ : Bool) : Str :=
  if run.length % 2 = 0 then run else run ++ [run.headD ' ']

/-- `_convert_novel_rule`. -/
def convertNovelRule (s : Str) : Str :=
  let s := novelPeriodBracket s
  let s := runSub (fun c => c = '…') evenOutRepl s
  let s := runSub (fun c => c = '‥') evenOutRepl s
  replaceStr (toL "。　") (toL "。") s

/-!  ### `_insert_separate_space`  -/

def closeChars : Str := toL "」］｝] \x7d』】〉》〕＞>≫)）\"”’〟　☆★♪［―"

def isBangQmark (c : Char) : Bool := c = '!' || c = '?' || c = '！' || c = '？'

/-- The scanner of `_insert_separate_space`
(`re.sub(r'([!?！？]+)([^!?！？])', repl, text)`): the match consumes the
run and the following character, so scanning resumes after both. -/
def insertSepGo : Nat → Str → Str
  | 0, s => s
  | _ + 1, [] => []
  | n + 1, c :: cs =>
    if isBangQmark c then
      let run := c :: cs.takeWhile isBangQmark
      let rest := cs.dropWhile isBangQmark
      match rest with
      | [] => run
      | d :: rest2 =>
        let m2 := if d = ' ' ∨ d = '　' ∨ d = '、' ∨ d = '。' then '　' else d
        if closeChars.contains m2 then run ++ m2 :: insertSepGo n rest2
        else run ++ '　' :: m2 :: insertSepGo n rest2
    else c :: insertSepGo n cs

/-- `_insert_separate_space`. -/
def insertSeparateSpace (s : Str) : Str := insertSepGo s.length s

/-!  ### `_delete_tag`  -/

/-- One pass of `re.sub(r'<.+?>', '', text, flags=re.DOTALL)`: at `<`, the
non-greedy `.+?` (with DOTALL, at least one character) runs to the first `>`
at distance at least two; if there is none the `<` is literal. -/
def deleteTagStepGo : Nat → Str → Str
  | 0, s => s
  | _ + 1, [] => []
  | n + 1, c :: cs =>
    if c = '<' then
      match cs with
      | [] => [c]
      | d :: ds =>
        match (ds.indexOf? '>').map (· + 1) with
        | some j => deleteTagStepGo n (List.drop (j + 1) (d :: ds))
        | none => c :: deleteTagStepGo n cs
    else c :: deleteTagStepGo n cs

def deleteTagStep (s : Str) : Str := deleteTagStepGo s.length s

/-- The fixed-point loop of `_delete_tag` (`while text != previous`), with
an explicit iteration count.  A fuel of `s.length + 1` is always enough
because every non-trivial pass strictly shortens the string. -/
def deleteTagLoop : Nat → Str → Str
  | 0, s => s
  | n + 1, s =>
    let t := deleteTagStep s
    if t = s then s else deleteTagLoop n t

/-- `_delete_tag`. -/
def deleteTag (s : Str) : Str := deleteTagLoop (s.length + 1) s

/-!  ### `_symbols_to_zenkaku`  -/

/-- First index where `isStop` holds, scanning left to right and failing at
the first `isAbort` character (`isStop` is tested first). -/
def scanUntil (isStop isAbort : Char → Bool) : Str → Option Nat
  | [] => none
  | c :: cs =>
    if isStop c then some 0
    else if isAbort c then none
    else (scanUntil isStop isAbort cs).map (· + 1)

def isQ1 (c : Char) : Bool := c = '‘' || c = '’' || c = Char.ofNat 39

def isQ2 (c : Char) : Bool := c = '“' || c = '”' || c = '〝' || c = '〟' || c = '"'

def isQAbort (c : Char) : Bool := c = '"' || c = '\n'

/-- The quote-pairing substitutions of `_symbols_to_zenkaku`
(`[‘’']([^"\n]+?)[‘’']` and `[“”〝〟"]([^"\n]+?)[“”〝〟"]` to `〝\1〟`):
at an opening quote the non-greedy group runs to the first closing-class
character at distance at least two, failing on `"` or a newline. -/
def quoteSubGo (isQ : Char → Bool) : Nat → Str → Str
  | 0, s => s
  | _ + 1, [] => []
  | n + 1, c :: cs =>
    if isQ c then
      match cs with
      | [] => [c]
      | d :: ds =>
        if isQAbort d then c :: quoteSubGo isQ n cs
        else
          match scanUntil isQ isQAbort ds with
          | some j => ('〝' :: d :: ds.take j) ++ '〟' :: quoteSubGo isQ n (ds.drop (j + 1))
          | none => c :: quoteSubGo isQ n cs
    else c :: quoteSubGo isQ n cs

/-- The `str.maketrans` table of `_symbols_to_zenkaku`. -/
def symPairs : List (Char × Char) :=
  [('-', '－'), ('=', '＝'), ('+', '＋'), ('/', '／'), ('*', '＊'),
   ('《', '≪'), ('》', '≫'), (Char.ofNat 39, '’'), ('"', '〝'),
   ('%', '％'), ('$', '＄'), ('#', '＃'), ('&', '＆'), ('!', '！'),
   ('?', '？'), ('<', '〈'), ('>', '〉'), ('＜', '〈'), ('＞', '〉'),
   ('(', '（'), (')', '）'), ('|', '｜'), ('‐', '－'), (',', '，'),
   ('.', '．'), ('_', '＿'), (';', '；'), (':', '：'), ('[', '［'),
   (']', '］'), (Char.ofNat 0x7b, '｛'), (Char.ofNat 0x7d, '｝')]

def translateWith (tbl : List (Char × Char)) (s : Str) : Str :=
  s.map fun c => (((tbl.find? fun p => p.1 = c).map Prod.snd).getD c)

/-- `_symbols_to_zenkaku`. -/
def symbolsToZenkaku (s : Str) : Str :=
  let s := quoteSubGo isQ1 s.length s
  let s := quoteSubGo isQ2 s.length s
  let s := translateWith symPairs s
  replaceStr [Char.ofNat 92] (toL "￥") s

/-- `_hankakukana_to_zenkakukana` (the punctuation parity kept from the NKF
conversion). -/
def hankakukanaToZenkakukana (s : Str) : Str :=
  replaceStr (toL "—") (toL "―") (replaceStr (toL "－") (toL "−") s)

/-!  ### Protected-span stash/restore  -/

def urlSentOpen : Char := Char.ofNat 0xE000

def urlSentClose : Char := Char.ofNat 0xE001

def urlSentBase : Nat := 0xE100

def engSentOpen : Char := Char.ofNat 0xE002

def engSentClose : Char := Char.ofNat 0xE003

def engSentBase : Nat := 0xE200

def komeSent : Char := Char.ofNat 0xE004

def urlBlock (i : Nat) : Str := [urlSentOpen, Char.ofNat (urlSentBase + i), urlSentClose]

def engBlock (i : Nat) : Str := [engSentOpen, Char.ofNat (engSentBase + i), engSentClose]

/-- The URL character class `[A-Za-z0-9\-._~:/?#\[\]@!$&'()*+,;=%]`. -/
def isUrlChar (c : Char) : Bool :=
  ('A' ≤ c && c ≤ 'Z') || ('a' ≤ c && c ≤ 'z') || ('0' ≤ c && c ≤ '9') ||
  c = '-' || c = '.' || c = '_' || c = '~' || c = ':' || c = '/' ||
  c = '?' || c = '#' || c = '[' || c = ']' || c = '@' || c = '!' ||
  c = '$' || c = '&' || c = Char.ofNat 39 || c = '(' || c = ')' ||
  c = '*' || c = '+' || c = ',' || c = ';' || c = '=' || c = '%'

/-- The scanner of `_stash_urls` over `https?://[...]+`. -/
def stashUrlsGo : Nat → List Str → Str → Str × List Str
  | 0, acc, s => (s, acc)
  | _ + 1, acc, [] => ([], acc)
  | n + 1, acc, c :: cs =>
    if (toL "https://").isPrefixOf (c :: cs) then
      let rest := List.drop 8 (c :: cs)
      let run := rest.takeWhile isUrlChar
      if run = [] then
        let t := stashUrlsGo n acc cs
        (c :: t.1, t.2)
      else
        let t := stashUrlsGo n (acc ++ [toL "https://" ++ run]) (rest.dropWhile isUrlChar)
        (urlBlock acc.length ++ t.1, t.2)
    else if (toL "http://").isPrefixOf (c :: cs) then
      let rest := List.drop 7 (c :: cs)
      let run := rest.takeWhile isUrlChar
      if run = [] then
        let t := stashUrlsGo n acc cs
        (c :: t.1, t.2)
      else
        let t := stashUrlsGo n (acc ++ [toL "http://" ++ run]) (rest.dropWhile isUrlChar)
        (urlBlock acc.length ++ t.1, t.2)
    else
      let t := stashUrlsGo n acc cs
      (c :: t.1, t.2)

/-- `_stash_urls`. -/
def stashUrls (s : Str) : Str × List Str := stashUrlsGo s.length [] s

/-- `_rebuild_urls`. -/
def rebuildUrls (s : Str) (urls : List Str) : Str :=
  urls.enum.foldl
    (fun t p =>
      replaceStr (urlBlock p.1)
        (toL "<a href=\"" ++ p.2 ++ toL "\">" ++ p.2 ++ toL "</a>") t)
    s

def splitOnChar (sep : Char) : Str → List Str
  | [] => [[]]
  | c :: cs =>
    if c = sep then [] :: splitOnChar sep cs
    else
      match splitOnChar sep cs with
      | [] => [[c]]
      | l :: ls => (c :: l) :: ls

/-- `sentence_like`: at least two nonempty space-separated chunks. -/
def sentenceLike (token : Str) : Bool :=
  2 ≤ ((splitOnChar ' ' token).filter fun l => !l.isEmpty).length

def isAsciiLetter (c : Char) : Bool := ('A' ≤ c && c ≤ 'Z') || ('a' ≤ c && c ≤ 'z')

/-- `long_ascii_word`: length at least 8 and containing a letter. -/
def longAsciiWord (token : Str) : Bool := 8 ≤ token.length && token.any isAsciiLetter

/-- The English-run character class `[A-Za-z0-9_.,!?\"' &:;-]`. -/
def isEngChar (c : Char) : Bool :=
  ('A' ≤ c && c ≤ 'Z') || ('a' ≤ c && c ≤ 'z') || ('0' ≤ c && c ≤ '9') ||
  c = '_' || c = '.' || c = ',' || c = '!' || c = '?' || c = '"' ||
  c = Char.ofNat 39 || c = ' ' || c = '&' || c = ':' || c = ';' || c = '-'

/-- The scanner of `_stash_english_sentences`. -/
def stashEngGo : Nat → List Str → Str → Str × List Str
  | 0, acc, s => (s, acc)
  | _ + 1, acc, [] => ([], acc)
  | n + 1, acc, c :: cs =>
    if isEngChar c then
      let run := c :: cs.takeWhile isEngChar
      let rest := cs.dropWhile isEngChar
      if sentenceLike run || longAsciiWord run then
        let t := stashEngGo n (acc ++ [run]) rest
        (engBlock acc.length ++ t.1, t.2)
      else
        let t := stashEngGo n acc rest
        (alphabetToZenkaku run ++ t.1, t.2)
    else
      let t := stashEngGo n acc cs
      (c :: t.1, t.2)

/-- `_stash_english_sentences`. -/
def stashEnglishSentences (s : Str) : Str × List Str := stashEngGo s.length [] s

/-- `_rebuild_english_sentences`. -/
def rebuildEnglishSentences (s : Str) (xs : List Str) : Str :=
  xs.enum.foldl (fun t p => replaceStr (engBlock p.1) p.2 t) s

/-- `_rebuild_hankaku_num_and_comma`. -/
def rebuildHankakuNumAndComma (s : Str) (xs : List Str) : Str :=
  xs.enum.foldl (fun t p => replaceStr (numBlock p.1) p.2 t) s

/-- `_stash_kome`. -/
def stashKome (s : Str) : Str := replaceStr (toL "※") [komeSent] s

/-- `_rebuild_kome_to_gaiji`. -/
def rebuildKomeToGaiji (s : Str) : Str :=
  replaceStr [komeSent] (toL "※［＃米印、1-2-8］") s

/-!  ### `_exception_reconvert_kanji_to_num`  -/

def isFwLetter (c : Char) : Bool := ('Ａ' ≤ c && c ≤ 'Ｚ') || ('ａ' ≤ c && c ≤ 'ｚ')

def isKanjiRunChar (c : Char) : Bool := isKanjiDigit c || c = '・' || c = '～'

def unitChars : Str := toL "％㎜㎝㎞㎎㎏㏄㎡㎥"

/-- `([Ａ-Ｚａ-ｚ])([〇-九・～]+)` to letter + full-width digits. -/
def excSub1Go : Nat → Str → Str
  | 0, s => s
  | _ + 1, [] => []
  | n + 1, c :: cs =>
    if isFwLetter c then
      let run := cs.takeWhile isKanjiRunChar
      if run = [] then c :: excSub1Go n cs
      else c :: (run.map kanjiToZenkakuDigit ++ excSub1Go n (cs.dropWhile isKanjiRunChar))
    else c :: excSub1Go n cs

/-- `([〇-九・～]+)([Ａ-Ｚａ-ｚ％㎜㎝㎞㎎㎏㏄㎡㎥])` to full-width digits + unit. -/
def excSub2Go : Nat → Str → Str
  | 0, s => s
  | _ + 1, [] => []
  | n + 1, c :: cs =>
    if isKanjiRunChar c then
      let run := c :: cs.takeWhile isKanjiRunChar
      let rest := cs.dropWhile isKanjiRunChar
      match rest with
      | [] => run
      | d :: rest2 =>
        if isFwLetter d || unitChars.contains d then
          run.map kanjiToZenkakuDigit ++ d :: excSub2Go n rest2
        else run ++ excSub2Go n rest
    else c :: excSub2Go n cs

/-- `_exception_reconvert_kanji_to_num`. -/
def exceptionReconvertKanjiToNum (s : Str) : Str :=
  let s := excSub1Go s.length s
  excSub2Go s.length s

/-!  ### Ruby restoration and vertical-bar escaping  -/

def notRuby1 (c : Char) : Bool := !(c = '｜' || c = '≪' || c = '≫' || c = '\n')

def notRuby2 (c : Char) : Bool := !(c = '≪' || c = '≫' || c = '\n')

def isRubyPunct (c : Char) : Bool :=
  c = '…' || c = '‥' || c = '。' || c = '．' || c = '、' || c = ',' || c = '-'

/-- The scanner of `_restore_explicit_ruby`
(`｜([^｜≪≫\n]+)≪([^≪≫\n]+)≫`, readings made solely of punctuation kept). -/
def rubyResGo : Nat → Str → Str
  | 0, s => s
  | _ + 1, [] => []
  | n + 1, c :: cs =>
    if c = '｜' then
      let g1 := cs.takeWhile notRuby1
      let r1 := cs.dropWhile notRuby1
      match r1 with
      | [] => c :: rubyResGo n cs
      | d :: r2 =>
        if g1 ≠ [] ∧ d = '≪' then
          let g2 := r2.takeWhile notRuby2
          let r3 := r2.dropWhile notRuby2
          match r3 with
          | [] => c :: rubyResGo n cs
          | e :: r4 =>
            if g2 ≠ [] ∧ e = '≫' then
              (if g2.all isRubyPunct then c :: g1 ++ d :: g2 ++ [e]
               else '｜' :: g1 ++ '《' :: g2 ++ ['》']) ++ rubyResGo n r4
            else c :: rubyResGo n cs
        else c :: rubyResGo n cs
    else c :: rubyResGo n cs

/-- `_restore_explicit_ruby`. -/
def restoreExplicitRuby (s : Str) : Str := rubyResGo s.length s

def notTate1 (c : Char) : Bool := !(c = '｜' || c = '《' || c = '》' || c = '\n')

def notTate2 (c : Char) : Bool := !(c = '《' || c = '》' || c = '\n')

/-- The first substitution of `_replace_tatesen`
(`｜([^｜《》\n]+)《([^《》\n]+)》` to `［＃ルビ用縦線］\1《\2》`). -/
def tatesenGo : Nat → Str → Str
  | 0, s => s
  | _ + 1, [] => []
  | n + 1, c :: cs =>
    if c = '｜' then
      let g1 := cs.takeWhile notTate1
      let r1 := cs.dropWhile notTate1
      match r1 with
      | [] => c :: tatesenGo n cs
      | d :: r2 =>
        if g1 ≠ [] ∧ d = '《' then
          let g2 := r2.takeWhile notTate2
          let r3 := r2.dropWhile notTate2
          match r3 with
          | [] => c :: tatesenGo n cs
          | e :: r4 =>
            if g2 ≠ [] ∧ e = '》' then
              (toL "［＃ルビ用縦線］" ++ g1 ++ '《' :: g2 ++ ['》']) ++ tatesenGo n r4
            else c :: tatesenGo n cs
        else c :: tatesenGo n cs
    else c :: tatesenGo n cs

/-- `_replace_tatesen`. -/
def replaceTatesen (s : Str) : Str :=
  let s := tatesenGo s.length s
  let s := replaceStr (toL "｜") (toL "※［＃縦線］") s
  replaceStr (toL "［＃ルビ用縦線］") (toL "｜") s

/-- `_convert_double_angle_quotation_to_gaiji`. -/
def convertDoubleAngleQuotationToGaiji (s : Str) : Str :=
  replaceStr (toL "≫") (toL "※［＃終わり二重山括弧］")
    (replaceStr (toL "≪") (toL "※［＃始め二重山括弧］") s)

/-!  ### Layout helpers  -/

def isOpenBracket (c : Char) : Bool := (toL "〔「『(（【〈《≪〝").contains c

/-- One line of `_half_indent_bracket`: the matched leading whitespace is
consumed by the substitution and not re-emitted. -/
def halfIndentLine (l : Str) : Str :=
  let rest := l.dropWhile isSpHT
  match rest with
  | c :: _ =>
    if isOpenBracket c then toL "［＃二分アキ］" ++ rest
    else if (toL "※［＃始め二重山括弧］").isPrefixOf rest then toL "［＃二分アキ］" ++ rest
    else l
  | [] => l

/-- `_half_indent_bracket`. -/
def halfIndentBracket (s : Str) : Str := joinNL ((splitNL s).map halfIndentLine)

/-!  ### `_auto_join_line`  -/

def isAutoJoinStop (c : Char) : Bool :=
  (toL "「『(（【<＜〈《≪・■…‥―　").contains c ||
  ('１' ≤ c && c ≤ '９') || ('一' ≤ c && c ≤ '九')

/-- The list of remainders reachable by consuming 0, 1, 2, ... groups of
`(?:[ 　\t]*\n)`. -/
def autoJoinRems : Nat → Str → List Str
  | 0, r => [r]
  | n + 1, r =>
    r :: (match r.dropWhile isSpHT with
      | c :: rest => if c = '\n' then autoJoinRems n rest else []
      | [] => [])

/-- Whether a remainder satisfies the tail `　([^...])` of the auto-join
pattern. -/
def autoJoinTailOk (r : Str) : Bool :=
  match r with
  | a :: d :: _ => a = '　' && !isAutoJoinStop d
  | _ => false

/-- The scanner of `_auto_join_line`
(`([^、])、\n(?:[ 　\t]*\n)*　([^「『(（【<＜〈《≪・■…‥―　１-９一-九])` to
`\1、\2`); the greedy group loop backtracks from the largest number of
consumed blank lines. -/
def autoJoinGo : Nat → Str → Str
  | 0, s => s
  | _ + 1, [] => []
  | n + 1, c :: cs =>
    if c = '、' then c :: autoJoinGo n cs
    else
      match cs with
      | d :: e :: rest =>
        if d = '、' ∧ e = '\n' then
          match ((autoJoinRems rest.length rest).reverse.filter autoJoinTailOk).head? with
          | some r =>
            match r with
            | _ :: x :: r2 => c :: '、' :: x :: autoJoinGo n r2
            | _ => c :: autoJoinGo n cs
          | none => c :: autoJoinGo n cs
        else c :: autoJoinGo n cs
      | _ => c :: autoJoinGo n cs

/-- `_auto_join_line`. -/
def autoJoinLine (s : Str) : Str := autoJoinGo s.length s

/-!  ### Remaining small stages  -/

/-- `_ensure_story_linebreaks` (both branches return the text unchanged). -/
def ensureStoryLinebreaks (s : Str) : Str :=
  if !s.any (fun c => c = '<') && !s.any (fun c => c = '>') then s else s

/-- `re.sub('　{3,}', '　　', text)`. -/
def zenkakuSpaceCollapse (s : Str) : Str :=
  runSub (fun c => c = '　') (fun run _ _ _ => if 3 ≤ run.length then toL "　　" else run) s

/-- `re.sub(r'[ 　\t]+$', '', text, flags=re.MULTILINE)`. -/
def trimLineEnds (s : Str) : Str := joinNL ((splitNL s).map rstripHT)

/-- `re.sub(r'[　\s]+\Z', '', text)`. -/
def finalTrimZ (s : Str) : Str := (s.reverse.dropWhile isPyWS).reverse

/-!  ### HTML-fragment normalizer (`_html_to_aozora`)  -/

def lowerEq (a b : Char) : Bool := a.toLower = b.toLower

/-- Case-insensitive prefix test (the patterns are ASCII). -/
def ciStarts : Str → Str → Bool
  | [], _ => true
  | _ :: _, [] => false
  | p :: ps, c :: cs => lowerEq p c && ciStarts ps cs

/-- First index at which `pat` starts case-insensitively. -/
def findCi (pat : Str) : Str → Option Nat
  | [] => none
  | c :: cs => if ciStarts pat (c :: cs) then some 0 else (findCi pat cs).map (· + 1)

/-- First index at which `pat` starts (case-sensitive). -/
def findSub (pat : Str) : Str → Option Nat
  | [] => none
  | c :: cs => if pat.isPrefixOf (c :: cs) then some 0 else (findSub pat cs).map (· + 1)

/-- Case-insensitive literal replacement, `re.sub` with IGNORECASE on a
literal pattern. -/
def replaceCiGo (p r : Str) : Nat → Str → Str
  | 0, s => s
  | _ + 1, [] => []
  | n + 1, c :: cs =>
    if ciStarts p (c :: cs) then r ++ replaceCiGo p r n (List.drop (p.length - 1) cs)
    else c :: replaceCiGo p r n cs

def replaceCi (p r s : Str) : Str := replaceCiGo p r s.length s

/-- `re.sub(r'<br.*?>', '\n', text, flags=re.IGNORECASE)`: after `<br` the
non-greedy `.*?` (no DOTALL, so no newline) runs to the first `>`. -/
def brSubGo : Nat → Str → Str
  | 0, s => s
  | _ + 1, [] => []
  | n + 1, c :: cs =>
    if c = '<' ∧ ciStarts (toL "br") cs then
      let rest := cs.drop 2
      match scanUntil (fun x => x = '>') (fun x => x = '\n') rest with
      | some j => '\n' :: brSubGo n (rest.drop (j + 1))
      | none => c :: brSubGo n cs
    else c :: brSubGo n cs

/-- `re.sub(r'\n?</p>', '\n', text, flags=re.IGNORECASE)`. -/
def pSubGo : Nat → Str → Str
  | 0, s => s
  | _ + 1, [] => []
  | n + 1, c :: cs =>
    if c = '\n' ∧ ciStarts (toL "</p>") cs then '\n' :: pSubGo n (cs.drop 4)
    else if ciStarts (toL "</p>") (c :: cs) then '\n' :: pSubGo n (cs.drop 3)
    else c :: pSubGo n cs

/-- Split at every case-insensitive occurrence of `pat`
(`re.split` with IGNORECASE). -/
def splitCiSub (pat : Str) : Nat → Str → List Str
  | 0, s => [s]
  | n + 1, s =>
    match findCi pat s with
    | some j => s.take j :: splitCiSub pat n (s.drop (j + pat.length))
    | none => [s]

/-- Everything before the first case-insensitive occurrence of `pat`
(`re.split(..., maxsplit=1)[0]`). -/
def cutCi (pat s : Str) : Str :=
  match findCi pat s with
  | some j => s.take j
  | none => s

/-- `ruby_repl` applied to the inner content of a `<ruby>` element. -/
def rubyRepl (inner : Str) : Str :=
  let parts := splitCiSub (toL "<rt>") (inner.length + 1) inner
  if parts.length < 2 then deleteTag (parts.headD [])
  else
    let base := deleteTag (cutCi (toL "<rp>") (parts.headD []))
    let rubyText := deleteTag (cutCi (toL "<rp>") ((parts.drop 1).headD []))
    if rubyText ≠ [] ∧ rubyText.all (fun c => c = '・' || c = '、') then
      toL "［＃傍点］" ++ base ++ toL "［＃傍点終わり］"
    else '｜' :: base ++ '《' :: rubyText ++ ['》']

/-- `re.sub(r'<ruby>(.+?)</ruby>', ruby_repl, text, IGNORECASE | DOTALL)`. -/
def rubySubGo : Nat → Str → Str
  | 0, s => s
  | _ + 1, [] => []
  | n + 1, c :: cs =>
    if c = '<' ∧ ciStarts (toL "ruby>") cs then
      let rest := cs.drop 5
      match rest with
      | [] => c :: rubySubGo n cs
      | r0 :: rest1 =>
        match (findCi (toL "</ruby>") rest1).map (· + 1) with
        | some j =>
          rubyRepl (r0 :: rest1.take (j - 1)) ++ rubySubGo n (rest.drop (j + 7))
        | none => c :: rubySubGo n cs
    else c :: rubySubGo n cs

/-- The quote-candidate loop for the `(.+?)\".*?>` tail of the `<img>`
pattern: try each closing quote in order, then look for `>` before a
newline, extending the group past the quote on failure. -/
def imgQuoteLoop : Nat → Str → Str → Option (Str × Str)
  | 0, _, _ => none
  | n + 1, consumed, s =>
    match scanUntil (fun x => x = '"') (fun x => x = '\n') s with
    | none => none
    | some j =>
      let group := consumed ++ s.take j
      let afterQ := s.drop (j + 1)
      match scanUntil (fun x => x = '>') (fun x => x = '\n') afterQ with
      | some k => some (group, afterQ.drop (k + 1))
      | none => imgQuoteLoop n (group ++ ['"']) afterQ

/-- The candidate loop for the non-greedy `.+?src=\"` part of the `<img>`
pattern (candidates in increasing offset, no newline crossed). -/
def imgSrcLoop : Nat → Str → Option (Str × Str)
  | 0, _ => none
  | _ + 1, [] => none
  | n + 1, a :: s2 =>
    if a = '\n' then none
    else if ciStarts (toL "src=\"") s2 then
      match s2.drop 5 with
      | [] => imgSrcLoop n s2
      | b :: rest =>
        if b = '\n' then imgSrcLoop n s2
        else
          match imgQuoteLoop rest.length [b] rest with
          | some (group, after) => some (group, after)
          | none => imgSrcLoop n s2
    else imgSrcLoop n s2

/-- `re.sub(r'<img.+?src=\"(?P<src>.+?)\".*?>', img_repl, text, IGNORECASE)`. -/
def imgSubGo : Nat → Str → Str
  | 0, s => s
  | _ + 1, [] => []
  | n + 1, c :: cs =>
    if c = '<' ∧ ciStarts (toL "img") cs then
      let rest := cs.drop 3
      match imgSrcLoop rest.length rest with
      | some (src, after) => (toL "［＃挿絵（" ++ src ++ toL "）入る］") ++ imgSubGo n after
      | none => c :: imgSubGo n cs
    else c :: imgSubGo n cs

/-- `re.sub(r'<em class="emphasisDots">(.+?)</em>', ..., flags=re.DOTALL)`
(case-sensitive). -/
def emSubGo : Nat → Str → Str
  | 0, s => s
  | _ + 1, [] => []
  | n + 1, c :: cs =>
    if (toL "<em class=\"emphasisDots\">").isPrefixOf (c :: cs) then
      let rest := List.drop ((toL "<em class=\"emphasisDots\">").length - 1) cs
      match rest with
      | [] => c :: emSubGo n cs
      | r0 :: rest1 =>
        match (findSub (toL "</em>") rest1).map (· + 1) with
        | some j =>
          (toL "［＃傍点］" ++ (r0 :: rest1.take (j - 1)) ++ toL "［＃傍点終わり］")
            ++ emSubGo n (rest.drop (j + 5))
        | none => c :: emSubGo n cs
    else c :: emSubGo n cs

def isHexDigitCh (c : Char) : Bool :=
  ('0' ≤ c && c ≤ '9') || ('a' ≤ c && c ≤ 'f') || ('A' ≤ c && c ≤ 'F')

def hexVal (c : Char) : Nat :=
  if '0' ≤ c ∧ c ≤ '9' then c.toNat - '0'.toNat
  else if 'a' ≤ c ∧ c ≤ 'f' then c.toNat - 'a'.toNat + 10
  else if 'A' ≤ c ∧ c ≤ 'F' then c.toNat - 'A'.toNat + 10
  else 0

def isDecDigitCh (c : Char) : Bool := '0' ≤ c && c ≤ '9'

def validScalar (v : Nat) : Bool := v < 0xD800 || (0xE000 ≤ v && v < 0x110000)

/-- Named entities modelled from Python `html.unescape` (restricted to the
common semicolon-terminated names; the full stdlib table and the
semicolon-less legacy forms are not modelled). -/
def namedEnts : List (Str × Char) :=
  [(toL "amp;", '&'), (toL "lt;", '<'), (toL "gt;", '>'),
   (toL "quot;", '"'), (toL "apos;", Char.ofNat 39), (toL "nbsp;", Char.ofNat 0xA0),
   (toL "hellip;", '…'), (toL "mdash;", '—'), (toL "ndash;", '–'),
   (toL "copy;", '©'), (toL "yen;", '￥')]

/-- `html.unescape`, modelled for numeric character references and the
entities of `namedEnts`; invalid references are kept literal. -/
def unescGo : Nat → Str → Str
  | 0, s => s
  | _ + 1, [] => []
  | n + 1, c :: cs =>
    if c = '&' then
      match cs with
      | '#' :: ds =>
        let hex := ds.headD ' ' = 'x' || ds.headD ' ' = 'X'
        let digits := if hex then (ds.drop 1).takeWhile isHexDigitCh else ds.takeWhile isDecDigitCh
        let rest := if hex then (ds.drop 1).dropWhile isHexDigitCh else ds.dropWhile isDecDigitCh
        if digits ≠ [] ∧ rest.headD ' ' = ';' then
          let v := digits.foldl (fun a d => a * (if hex then 16 else 10) + hexVal d) 0
          if validScalar v then Char.ofNat v :: unescGo n (rest.drop 1)
          else c :: unescGo n cs
        else c :: unescGo n cs
      | _ =>
        match namedEnts.find? (fun p => p.1.isPrefixOf cs) with
        | some p => p.2 :: unescGo n (cs.drop p.1.length)
        | none => c :: unescGo n cs
    else c :: unescGo n cs

def unescapeHtml (s : Str) : Str := unescGo s.length s

/-- `_html_to_aozora`. -/
def htmlToAozora (value : Str) (preHtml : Bool) : Str :=
  if value = [] then []
  else
    let text := value
    let text :=
      if preHtml then text
      else
        let t := text.filter fun c => !(c = '\r' || c = '\n')
        brSubGo t.length t
    let text := pSubGo text.length text
    let text := rubySubGo text.length text
    let text := replaceCi (toL "<b>") (toL "［＃太字］") text
    let text := replaceCi (toL "</b>") (toL "［＃太字終わり］") text
    let text := replaceCi (toL "<i>") (toL "［＃斜体］") text
    let text := replaceCi (toL "</i>") (toL "［＃斜体終わり］") text
    let text := replaceCi (toL "<s>") (toL "［＃取消線］") text
    let text := replaceCi (toL "</s>") (toL "［＃取消線終わり］") text
    let text := imgSubGo text.length text
    let text := emSubGo text.length text
    let text := deleteTag text
    unescapeHtml text

/-!  ### The pipeline (`_convert_html_fragment_to_aozora`)  -/

def convertHtmlFragmentToAozora (value : Str) (tt : TextKind) : Str :=
  if value = [] then []
  else
    let preHtml := tt = TextKind.story ∧
      !value.any (fun c => c = '<') ∧ !value.any (fun c => c = '>')
    let text := htmlToAozora value preHtml
    let text := hankakukanaToZenkakukana text
    let text := if tt = TextKind.story then ensureStoryLinebreaks text else text
    let text := autoJoinLine text
    let text := replaceStr (toL "【改ページ】") [] text
    let text := replaceCi (toL "<KBR>") (toL "\n") text
    let text := replaceCi (toL "<PBR>") (toL "\n") text
    let su := stashUrls text
    let se := stashEnglishSentences su.1
    let text := stashKome se.1
    let text := symbolsToZenkaku text
    let cn := convertNumbers tt text
    let text := cn.1
    let text :=
      if tt = TextKind.subtitle ∨ tt = TextKind.chapter ∨ tt = TextKind.story then text
      else exceptionReconvertKanjiToNum text
    let text := insertSeparateSpace text
    let text := convertTatechuyoko text
    let text := convertNovelRule text
    let text := convertHorizontalEllipsis text
    let text := restoreExplicitRuby text
    let text := replaceTatesen text
    let text := convertDoubleAngleQuotationToGaiji text
    let text := rebuildEnglishSentences text se.2
    let text := rebuildHankakuNumAndComma text cn.2
    let text := rebuildUrls text su.2
    let text := rebuildKomeToGaiji text
    let text := zenkakuSpaceCollapse text
    let text :=
      if tt = TextKind.body ∨ tt = TextKind.textfile then
        convertTatechuyoko (packBlankLines (halfIndentBracket text))
      else if tt = TextKind.introduction ∨ tt = TextKind.postscript then
        packBlankLines text
      else text
    let text := trimLineEnds text
    finalTrimZ text

/-- The English spans stashed by the pipeline for a given input (replaying
the pipeline prefix up to `_stash_english_sentences`). -/
def pipelineEnglishSpans (value : Str) (tt : TextKind) : List Str :=
  if value = [] then []
  else
    let preHtml := tt = TextKind.story ∧
      !value.any (fun c => c = '<') ∧ !value.any (fun c => c = '>')
    let text := htmlToAozora value preHtml
    let text := hankakukanaToZenkakukana text
    let text := if tt = TextKind.story then ensureStoryLinebreaks text else text
    let text := autoJoinLine text
    let text := replaceStr (toL "【改ページ】") [] text
    let text := replaceCi (toL "<KBR>") (toL "\n") text
    let text := replaceCi (toL "<PBR>") (toL "\n") text
    let su := stashUrls text
    (stashEnglishSentences su.1).2

/-- The last character of `g` if it has one, else the ambient `left`. -/
def lastOr (g : Str) (left : Option Char) : Option Char :=
  match g.getLast? with
  | some c => some c
  | none => left

/-- Concatenation of (run, following gap) pairs. -/
def mixStr (ps : List (Str × Str)) : Str := (ps.map fun q => q.1 ++ q.2).flatten

/-- Well-formed decomposition into maximal `p`-runs: every run is a nonempty
string of `p`-characters, every gap is `p`-free, and every gap except
possibly the last is nonempty (so that distinct runs are separated). -/
inductive RunsWF (p : Char → Bool) : List (Str × Str) → Prop
  | nil : RunsWF p []
  | cons {r g : Str} {rest : List (Str × Str)} :
      r ≠ [] → (∀ c ∈ r, p c = true) → (∀ c ∈ g, p c = false) →
      (rest ≠ [] → g ≠ []) → RunsWF p rest → RunsWF p ((r, g) :: rest)

/-- The output of a maximal-run substitution on a decomposition: each run is
replaced by `T` applied with its original neighbors and start flag, gaps are
kept. -/
def runsOut (T : Str → Option Char → Option Char → Bool → Str) :
    Option Char → Bool → List (Str × Str) → Str
  | _, _, [] => []
  | left, at1, (r, g) :: rest =>
    T r left g.head? at1 ++ g ++ runsOut T (lastOr g r.getLast?) false rest

/-- The per-run output of `_hankaku_num_to_zenkaku_num` as stated by the
spec: a 2-digit run is wrapped, a 3-digit run is wrapped exactly when the
kind is subtitle and the run starts the string, anything else is
transliterated digit-by-digit to full width. -/
def c5Run (tt : TextKind) (first : Bool) (r : Str) : Str :=
  if r.length = 2 then tcy r
  else if r.length = 3 ∧ tt = TextKind.subtitle ∧ first then tcy r
  else r.map hwToZenkakuDigit

def c5Out (tt : TextKind) : Bool → List (Str × Str) → Str
  | _, [] => []
  | first, (r, g) :: rest => c5Run tt first r ++ g ++ c5Out tt false rest

/-- The per-run output of the `！+` pass of `_convert_tatechuyoko` for runs
with no `？` neighbor, as the spec states it: a 3-run becomes one wrapped
`!!!`, a run of length at least 4 becomes `ceil(n/2)` individually wrapped
`!!` pairs, shorter runs pass through to the mixed pass. -/
def c6RunP1 (r : Str) : Str :=
  if r.length = 3 then tcy (toL "!!!")
  else if 4 ≤ r.length then (List.replicate ((r.length + 1) / 2) (tcy (toL "!!"))).flatten
  else r

/-- The final per-run output of `_convert_tatechuyoko` for a maximal `！` run
with no `？` neighbor: as `c6RunP1`, and a surviving 2-run is wrapped by the
mixed pass, a 1-run is unchanged. -/
def c6Run (r : Str) : Str :=
  if r.length = 3 then tcy (toL "!!!")
  else if 4 ≤ r.length then (List.replicate ((r.length + 1) / 2) (tcy (toL "!!"))).flatten
  else if r.length = 2 then tcy (r.map bangToAscii)
  else r

def p1Out : List (Str × Str) → Str
  | [] => []
  | (r, g) :: rest => c6RunP1 r ++ g ++ p1Out rest

/-- The output of `_convert_tatechuyoko` on a decomposition into maximal `！`
runs: each run is rewritten by `c6Run` and each gap is processed by the
mixed `[！？]+` pass. -/
def c6Out : List (Str × Str) → Str
  | [] => []
  | (r, g) :: rest =>
    c6Run r ++ runSub isBangQ mixedRepl g ++ c6Out rest

/-- The stashed text of `_stash_english_sentences` as a function of the
next free sentinel index alone (the scanner's accumulator only contributes
its length to the emitted blocks). -/
def engStashed : Nat → Nat → Str → Str
  | 0, _, s => s
  | _ + 1, _, [] => []
  | n + 1, k, c :: cs =>
    if isEngChar c then
      let run := c :: cs.takeWhile isEngChar
      let rest := cs.dropWhile isEngChar
      if sentenceLike run || longAsciiWord run then engBlock k ++ engStashed n (k + 1) rest
      else alphabetToZenkaku run ++ engStashed n k rest
    else c :: engStashed n k cs

/-- The list of protected English spans collected by the scanner. -/
def engSpans : Nat → Str → List Str
  | 0, _ => []
  | _ + 1, [] => []
  | n + 1, c :: cs =>
    if isEngChar c then
      let run := c :: cs.takeWhile isEngChar
      let rest := cs.dropWhile isEngChar
      if sentenceLike run || longAsciiWord run then run :: engSpans n rest
      else engSpans n rest
    else engSpans n cs

/-- What stash-then-rebuild is meant to produce: protected English spans
kept verbatim in place, unprotected runs transliterated to full width,
everything else untouched. -/
def engScan : Nat → Str → Str
  | 0, s => s
  | _ + 1, [] => []
  | n + 1, c :: cs =>
    if isEngChar c then
      let run := c :: cs.takeWhile isEngChar
      let rest := cs.dropWhile isEngChar
      if sentenceLike run || longAsciiWord run then run ++ engScan n rest
      else alphabetToZenkaku run ++ engScan n rest
    else c :: engScan n cs

/-- `_rebuild_english_sentences` with sentinel numbering starting at `k`. -/
def rebuildFrom (k : Nat) (xs : List Str) (t : Str) : Str :=
  (List.enumFrom k xs).foldl (fun t p => replaceStr (engBlock p.1) p.2 t) t

/-!  ## Theorems  -/

/-- Claim C3: on the specific five-line input with blank runs, a whitespace-only
line and a `*****` border line, `_pack_blank_lines` returns exactly the
expected literal. -/
theorem pack_blank_lines_seed_vector :
    packBlankLines (toL "一行目\n\n二行目\n\n\n三行目\n　\n\n四行目\n*****\n\n\n五行目\n")
      = toL "一行目\n二行目\n\n三行目\n\n四行目\n\n　　　　＊＊＊＊＊\n\n\n五行目" := by
  decide

/-- Claim C2 (counterexample): `_pack_blank_lines` is not idempotent.  A run
of two blank lines between ordinary lines is collapsed to one blank line,
and the second application then drops that single blank line entirely. -/
theorem pack_blank_lines_not_idempotent :
    packBlankLines (toL "あ\n\n\nい") = toL "あ\n\nい" ∧
    packBlankLines (packBlankLines (toL "あ\n\n\nい")) = toL "あ\nい" ∧
    packBlankLines (packBlankLines (toL "あ\n\n\nい"))
      ≠ packBlankLines (toL "あ\n\n\nい") := by
  refine ⟨by decide, by decide, by decide⟩

/-- Claim C4 (counterexample): a run of exactly one blank line between two
ordinary lines is dropped, not collapsed to one emitted blank line: the
claimed output would be the input itself. -/
theorem pack_single_blank_dropped :
    packBlankLines (toL "あ\n\nい") = toL "あ\nい" ∧
    toL "あ\nい" ≠ toL "あ\n\nい" := by
  refine ⟨by decide, by decide⟩

/-- Claim C8: `_digits_to_kanji` is the character-wise extension of a map
sending the i-th half-width digit and the i-th full-width digit to the i-th
kanji numeral of `〇一二三四五六七八九` and fixing every other character, so
it preserves length and character order; on `"123４５６abc７８９0"` it yields
`"一二三四五六abc七八九〇"`. -/
theorem digits_to_kanji_spec :
    (∀ s : Str, digitsToKanji s = s.map digitToKanji) ∧
    (∀ i, i < 10 →
      digitToKanji (Char.ofNat (48 + i)) = kanjiNumChars.getD i '〇' ∧
      digitToKanji (Char.ofNat (0xFF10 + i)) = kanjiNumChars.getD i '〇') ∧
    (∀ c : Char, isPyDigit c = false → digitToKanji c = c) ∧
    (∀ s : Str, (digitsToKanji s).length = s.length) ∧
    digitsToKanji (toL "123４５６abc７８９0") = toL "一二三四五六abc七八九〇" := by
  refine ⟨fun s => rfl, by decide, ?_, fun s => s.length_map _, by decide⟩
  intro c hc
  have h1 : ¬('0' ≤ c ∧ c ≤ '9') := by
    rintro ⟨a, b⟩
    simp [isPyDigit, a, b] at hc
  have h2 : ¬('０' ≤ c ∧ c ≤ '９') := by
    rintro ⟨a, b⟩
    simp [isPyDigit, a, b] at hc
  simp [digitToKanji, hwDigitIdx?, fwDigitIdx?, h1, h2]

/-- Claim C8 (witness): the quantified parts of `digits_to_kanji_spec`
evaluated at concrete inputs. -/
theorem digits_to_kanji_spec_witness :
    digitsToKanji (toL "x1") = (toL "x1").map digitToKanji ∧
    digitToKanji (Char.ofNat (48 + 7)) = kanjiNumChars.getD 7 '〇' ∧
    digitToKanji 'x' = 'x' ∧
    (digitsToKanji (toL "x1")).length = (toL "x1").length :=
  ⟨digits_to_kanji_spec.1 (toL "x1"),
   (digits_to_kanji_spec.2.1 7 (by decide)).1,
   digits_to_kanji_spec.2.2.1 'x' (by decide),
   digits_to_kanji_spec.2.2.2.1 (toL "x1")⟩

theorem deleteTagStepGo_length_le : ∀ n (s : Str), (deleteTagStepGo n s).length ≤ s.length := by
  intro n
  induction n with
  | zero => intro s; simp [deleteTagStepGo]
  | succ n ih =>
    intro s
    match s with
    | [] => simp [deleteTagStepGo]
    | c :: cs =>
      by_cases hc : c = '<'
      · subst hc
        match cs with
        | [] => simp [deleteTagStepGo]
        | d :: ds =>
          rcases h : (ds.indexOf? '>').map (· + 1) with _ | j
          · have h1 := ih (d :: ds)
            simp only [List.length_cons] at h1 ⊢
            simp [deleteTagStepGo, h]
            omega
          · have h1 := ih (List.drop (j + 1) (d :: ds))
            simp only [List.drop_succ_cons, List.length_drop] at h1
            simp [deleteTagStepGo, h]
            omega
      · have h1 := ih cs
        simp [deleteTagStepGo, hc]
        omega

theorem deleteTagStepGo_shrink :
    ∀ n (s : Str), deleteTagStepGo n s = s ∨ (deleteTagStepGo n s).length + 2 ≤ s.length := by
  intro n
  induction n with
  | zero => intro s; left; simp [deleteTagStepGo]
  | succ n ih =>
    intro s
    match s with
    | [] => left; simp [deleteTagStepGo]
    | c :: cs =>
      by_cases hc : c = '<'
      · subst hc
        match cs with
        | [] => left; simp [deleteTagStepGo]
        | d :: ds =>
          rcases h : (ds.indexOf? '>').map (· + 1) with _ | j
          · rcases ih (d :: ds) with h1 | h1
            · left; simp [deleteTagStepGo, h, h1]
            · right
              simp [deleteTagStepGo, h]
              simp only [List.length_cons] at h1 ⊢
              omega
          · right
            have h1 := deleteTagStepGo_length_le n (List.drop (j + 1) (d :: ds))
            simp only [List.drop_succ_cons, List.length_drop] at h1
            have hj : 1 ≤ j := by
              rcases Option.map_eq_some'.mp h with ⟨k, _, hk⟩
              omega
            simp [deleteTagStepGo, h]
            omega
      · rcases ih cs with h1 | h1
        · left; simp [deleteTagStepGo, hc, h1]
        · right
          have h2 : (deleteTagStepGo (n + 1) (c :: cs)).length = (deleteTagStepGo n cs).length + 1 := by
            simp [deleteTagStepGo, hc]
          simp only [h2, List.length_cons]
          omega

theorem deleteTagStep_shrink (s : Str) :
    deleteTagStep s = s ∨ (deleteTagStep s).length + 2 ≤ s.length :=
  deleteTagStepGo_shrink s.length s

theorem deleteTagLoop_fix :
    ∀ fuel (s : Str), s.length < fuel →
      deleteTagStep (deleteTagLoop fuel s) = deleteTagLoop fuel s := by
  intro fuel
  induction fuel with
  | zero => intro s h; omega
  | succ n ih =>
    intro s h
    simp only [deleteTagLoop]
    by_cases hst : deleteTagStep s = s
    · simp only [if_pos hst]
      exact hst
    · simp only [if_neg hst]
      apply ih
      rcases deleteTagStep_shrink s with h1 | h1
      · exact absurd h1 hst
      · omega

/-- Claim C10: the fixed-point loop of `_delete_tag` terminates: one pass
either leaves the string unchanged (and the loop exits) or removes at least
two characters, so with fuel `length + 1` the loop always reaches a genuine
fixed point of the tag-stripping pass. -/
theorem delete_tag_total_fixpoint :
    (∀ s : Str, deleteTagStep s = s ∨ (deleteTagStep s).length + 2 ≤ s.length) ∧
    (∀ s : Str, deleteTagStep (deleteTag s) = deleteTag s) :=
  ⟨deleteTagStep_shrink, fun s => deleteTagLoop_fix _ s (Nat.lt_succ_self _)⟩

/-!  ## Theory of `runSub`  -/

theorem takeWhile_append_all (p : Char → Bool) (r rest : Str) (h : ∀ c ∈ r, p c = true) :
    (r ++ rest).takeWhile p = r ++ rest.takeWhile p := by
  induction r with
  | nil => rfl
  | cons c cs ih =>
    have hc : p c = true := h c (by simp)
    simp only [List.cons_append, List.takeWhile_cons, hc, if_true]
    rw [ih fun d hd => h d (by simp [hd])]

theorem dropWhile_append_all (p : Char → Bool) (r rest : Str) (h : ∀ c ∈ r, p c = true) :
    (r ++ rest).dropWhile p = rest.dropWhile p := by
  induction r with
  | nil => rfl
  | cons c cs ih =>
    have hc : p c = true := h c (by simp)
    simp only [List.cons_append, List.dropWhile_cons, hc, if_true]
    exact ih fun d hd => h d (by simp [hd])

theorem takeWhile_nil_of_head (p : Char → Bool) (rest : Str)
    (h : ∀ d, rest.head? = some d → p d = false) : rest.takeWhile p = [] := by
  cases rest with
  | nil => rfl
  | cons d ds => simp [List.takeWhile_cons, h d rfl]

theorem dropWhile_self_of_head (p : Char → Bool) (rest : Str)
    (h : ∀ d, rest.head? = some d → p d = false) : rest.dropWhile p = rest := by
  cases rest with
  | nil => rfl
  | cons d ds => simp [List.dropWhile_cons, h d rfl]

theorem runSubGo_fuel_eq (p : Char → Bool) (T : Str → Option Char → Option Char → Bool → Str) :
    ∀ n m (s : Str) left at1, s.length ≤ n → s.length ≤ m →
      runSubGo p T n left at1 s = runSubGo p T m left at1 s := by
  intro n
  induction n with
  | zero =>
    intro m s left at1 h1 _
    have : s = [] := List.eq_nil_of_length_eq_zero (Nat.le_zero.mp h1)
    subst this
    cases m <;> simp [runSubGo]
  | succ n ih =>
    intro m s left at1 h1 h2
    match s with
    | [] => cases m <;> simp [runSubGo]
    | c :: cs =>
      match m with
      | 0 => simp at h2
      | m + 1 =>
        by_cases hp : p c = true
        · simp only [runSubGo, if_pos hp]
          congr 1
          apply ih
          · have := (List.dropWhile_sublist (l := cs) p).length_le
            simp only [List.length_cons] at h1
            omega
          · have := (List.dropWhile_sublist (l := cs) p).length_le
            simp only [List.length_cons] at h2
            omega
        · simp only [runSubGo, if_neg hp]
          congr 1
          apply ih
          · simp only [List.length_cons] at h1; omega
          · simp only [List.length_cons] at h2; omega

/-- Scanner stepping over a run-free prefix: every character of `g` fails
`p`, so the scanner copies it and updates its left-neighbor state. -/
theorem runSubGo_gap (p : Char → Bool) (T : Str → Option Char → Option Char → Bool → Str) :
    ∀ (g : Str) n left at1 rest, (∀ c ∈ g, p c = false) → g.length + rest.length ≤ n →
      runSubGo p T n left at1 (g ++ rest)
        = g ++ runSubGo p T rest.length (lastOr g left) (at1 && g.isEmpty) rest := by
  intro g
  induction g with
  | nil =>
    intro n left at1 rest _ hn
    simp only [List.nil_append, List.length_nil, Nat.zero_add] at *
    rw [runSubGo_fuel_eq p T n rest.length rest left at1 hn (Nat.le_refl _)]
    simp [lastOr]
  | cons c g ih =>
    intro n left at1 rest hg hn
    match n with
    | 0 => simp at hn
    | n + 1 =>
      have hc : ¬(p c = true) := by simp [hg c (by simp)]
      simp only [List.cons_append, runSubGo, if_neg hc, List.append_eq]
      rw [ih n (some c) false rest (fun d hd => hg d (by simp [hd]))
        (by simp only [List.length_cons] at hn; omega)]
      have hlast : lastOr g (some c) = lastOr (c :: g) left := by
        cases g with
        | nil => simp [lastOr]
        | cons d ds =>
          simp only [lastOr, List.getLast?_cons_cons]
          rw [List.getLast?_eq_getLast (d :: ds) (by simp)]
      simp [hlast]

/-- Scanner consuming one maximal run: `r` is nonempty, all of `r` satisfies
`p`, and the first character after `r` (if any) does not. -/
theorem runSubGo_run (p : Char → Bool) (T : Str → Option Char → Option Char → Bool → Str) :
    ∀ n left at1 (r rest : Str), r ≠ [] → (∀ c ∈ r, p c = true) →
      (∀ d, rest.head? = some d → p d = false) →
      r.length + rest.length ≤ n →
      runSubGo p T n left at1 (r ++ rest)
        = T r left rest.head? at1 ++ runSubGo p T rest.length r.getLast? false rest := by
  intro n left at1 r rest hne hr hrest hn
  match r with
  | [] => exact absurd rfl hne
  | c :: r' =>
    match n with
    | 0 => simp at hn
    | n + 1 =>
      have hc : p c = true := hr c (by simp)
      have ht : (r' ++ rest).takeWhile p = r' := by
        rw [takeWhile_append_all p r' rest fun d hd => hr d (by simp [hd]),
          takeWhile_nil_of_head p rest hrest, List.append_nil]
      have hd : (r' ++ rest).dropWhile p = rest := by
        rw [dropWhile_append_all p r' rest fun d hd => hr d (by simp [hd]),
          dropWhile_self_of_head p rest hrest]
      simp only [List.cons_append, runSubGo, if_pos hc, List.append_eq, ht, hd]
      congr 1
      apply runSubGo_fuel_eq
      · simp only [List.length_cons, List.length_append] at hn
        omega
      · exact Nat.le_refl _

theorem mixStr_cons (r g : Str) (rest : List (Str × Str)) :
    mixStr ((r, g) :: rest) = r ++ (g ++ mixStr rest) := by
  simp [mixStr, List.append_assoc]

theorem runSubGo_decomp (p : Char → Bool) (T : Str → Option Char → Option Char → Bool → Str) :
    ∀ (ps : List (Str × Str)) (g₀ : Str) n left at1,
      (∀ c ∈ g₀, p c = false) → RunsWF p ps →
      (g₀ ++ mixStr ps).length ≤ n →
      runSubGo p T n left at1 (g₀ ++ mixStr ps)
        = g₀ ++ runsOut T (lastOr g₀ left) (at1 && g₀.isEmpty) ps := by
  intro ps
  induction ps with
  | nil =>
    intro g₀ n left at1 hg₀ _ hn
    have hmix : mixStr [] = [] := rfl
    rw [hmix] at hn ⊢
    rw [runSubGo_gap p T g₀ n left at1 [] hg₀ (by simpa using hn)]
    simp [runSubGo, runsOut]
  | cons q rest ih =>
    intro g₀ n left at1 hg₀ hwf hn
    obtain ⟨r, g⟩ := q
    cases hwf with
    | cons hr hrall hgall hinner hrest =>
      rw [mixStr_cons] at hn ⊢
      have hhead : ∀ d, (g ++ mixStr rest).head? = some d → p d = false := by
        intro d hd
        cases hg : g with
        | nil =>
          subst hg
          cases hrestn : rest with
          | nil => rw [hrestn] at hd; simp [mixStr] at hd
          | cons q2 rest2 =>
            exact absurd rfl (hinner (by rw [hrestn]; simp))
        | cons x xs =>
          subst hg
          simp only [List.cons_append, List.head?_cons, Option.some.injEq] at hd
          exact hd ▸ hgall x (by simp)
      have hhead2 : (g ++ mixStr rest).head? = g.head? := by
        cases hg : g with
        | nil =>
          subst hg
          cases hrestn : rest with
          | nil => simp [mixStr]
          | cons q2 rest2 =>
            exact absurd rfl (hinner (by rw [hrestn]; simp))
        | cons x xs => subst hg; simp
      calc runSubGo p T n left at1 (g₀ ++ (r ++ (g ++ mixStr rest)))
          = g₀ ++ runSubGo p T (r ++ (g ++ mixStr rest)).length (lastOr g₀ left)
              (at1 && g₀.isEmpty) (r ++ (g ++ mixStr rest)) := by
            rw [runSubGo_gap p T g₀ n left at1 (r ++ (g ++ mixStr rest)) hg₀
              (by simp only [List.length_append] at hn ⊢; omega)]
        _ = g₀ ++ (T r (lastOr g₀ left) (g ++ mixStr rest).head? (at1 && g₀.isEmpty)
              ++ runSubGo p T (g ++ mixStr rest).length r.getLast? false (g ++ mixStr rest)) := by
            rw [runSubGo_run p T _ _ _ r (g ++ mixStr rest) hr hrall hhead (by simp)]
        _ = g₀ ++ (T r (lastOr g₀ left) g.head? (at1 && g₀.isEmpty)
              ++ (g ++ runsOut T (lastOr g r.getLast?) (false && g.isEmpty) rest)) := by
            rw [hhead2, ih g _ r.getLast? false hgall hrest (Nat.le_refl _)]
        _ = g₀ ++ runsOut T (lastOr g₀ left) (at1 && g₀.isEmpty) ((r, g) :: rest) := by
            simp [runsOut, List.append_assoc]

/-- `re.sub` over maximal `p`-runs, applied to a well-formed decomposition:
the gaps are copied and each run is rewritten in place, seeing its original
neighbors. -/
theorem runSub_decomp (p : Char → Bool) (T : Str → Option Char → Option Char → Bool → Str)
    (g₀ : Str) (ps : List (Str × Str))
    (hg₀ : ∀ c ∈ g₀, p c = false) (hwf : RunsWF p ps) :
    runSub p T (g₀ ++ mixStr ps) = g₀ ++ runsOut T (lastOr g₀ none) g₀.isEmpty ps := by
  have := runSubGo_decomp p T ps g₀ (g₀ ++ mixStr ps).length none true hg₀ hwf (Nat.le_refl _)
  simpa [runSub] using this

/-!  ## Claim C5  -/

theorem runsOut_eq_c5Out (tt : TextKind) :
    ∀ (ps : List (Str × Str)) left first,
      runsOut (hnzRepl tt) left first ps = c5Out tt first ps := by
  intro ps
  induction ps with
  | nil => intro left first; rfl
  | cons q rest ih =>
    intro left first
    obtain ⟨r, g⟩ := q
    simp only [runsOut, c5Out, ih]
    rfl

/-- Claim C5: for every string presented as a well-formed decomposition into
maximal digit runs, `_hankaku_num_to_zenkaku_num` wraps every maximal run of
exactly 2 digits unchanged in the vertical-mixed-script pair, wraps a
maximal run of exactly 3 digits exactly when the text kind is `subtitle` and
the run starts at position 0 (the leading gap is empty and it is the first
run), and transliterates every other digit run digit-by-digit to full-width;
the non-digit gaps are unchanged. -/
theorem hankaku_num_to_zenkaku_spec (tt : TextKind) (g₀ : Str) (ps : List (Str × Str))
    (hg₀ : ∀ c ∈ g₀, isPyDigit c = false) (hwf : RunsWF isPyDigit ps) :
    hankakuNumToZenkakuNum tt (g₀ ++ mixStr ps) = g₀ ++ c5Out tt g₀.isEmpty ps := by
  rw [hankakuNumToZenkakuNum, runSub_decomp isPyDigit (hnzRepl tt) g₀ ps hg₀ hwf,
    runsOut_eq_c5Out]

/-- Claim C5 (witness): `"12あ345"` for kind `subtitle`: the leading 2-run is
wrapped (it has length 2), the 3-run is not wrapped (it does not start at
position 0), and is transliterated. -/
theorem hankaku_num_to_zenkaku_spec_witness :
    hankakuNumToZenkakuNum TextKind.subtitle (toL "12あ345")
      = toL "" ++ c5Out TextKind.subtitle true [(toL "12", toL "あ"), (toL "345", [])] ∧
    toL "" ++ c5Out TextKind.subtitle true [(toL "12", toL "あ"), (toL "345", [])]
      = tcy (toL "12") ++ toL "あ３４５" := by
  constructor
  · have h := hankaku_num_to_zenkaku_spec TextKind.subtitle (toL "")
      [(toL "12", toL "あ"), (toL "345", [])]
      (by decide)
      (RunsWF.cons (by decide) (by decide) (by decide) (fun _ => by decide)
        (RunsWF.cons (by decide) (by decide) (by decide) (fun h => absurd rfl h) RunsWF.nil))
    simpa [mixStr] using h
  · decide

/-!  ## Splitting a run substitution at an inert boundary  -/

theorem takeWhile_append_of_exists (p : Char → Bool) :
    ∀ (a b : Str), (∃ x ∈ a, p x = false) →
      (a ++ b).takeWhile p = a.takeWhile p ∧ (a ++ b).dropWhile p = a.dropWhile p ++ b := by
  intro a
  induction a with
  | nil => intro b h; simp at h
  | cons c a ih =>
    intro b h
    by_cases hc : p c = true
    · obtain ⟨x, hx, hpx⟩ := h
      have hx' : x ∈ a := by
        rcases List.mem_cons.mp hx with h1 | h1
        · subst h1; rw [hc] at hpx; simp at hpx
        · exact h1
      have := ih b ⟨x, hx', hpx⟩
      simp only [List.cons_append, List.takeWhile_cons, List.dropWhile_cons, hc, if_true,
        this.1, this.2, and_self, List.cons.injEq, true_and]
    · simp only [List.cons_append, List.takeWhile_cons, List.dropWhile_cons,
        Bool.not_eq_true] at hc ⊢
      simp [hc]

theorem dropWhile_ne_nil_of_exists (p : Char → Bool) (a : Str) (h : ∃ x ∈ a, p x = false) :
    a.dropWhile p ≠ [] := by
  intro hnil
  obtain ⟨x, hx, hpx⟩ := h
  have := List.dropWhile_eq_nil_iff.mp hnil x hx
  rw [hpx] at this
  exact Bool.false_ne_true this

theorem dropWhile_getLast? (p : Char → Bool) (a : Str) (h : a.dropWhile p ≠ []) :
    (a.dropWhile p).getLast? = a.getLast? := by
  conv_rhs => rw [← List.takeWhile_append_dropWhile (p := p) (l := a)]
  rw [List.getLast?_append]
  cases hg : (a.dropWhile p).getLast? with
  | none =>
    exact absurd (List.getLast?_eq_none_iff.mp hg) h
  | some x => simp [Option.or]

theorem runSubGo_ctx_irrel (p : Char → Bool) (T : Str → Option Char → Option Char → Bool → Str)
    (hT : ∀ r l1 r1 b1 l2 r2 b2, T r l1 r1 b1 = T r l2 r2 b2) :
    ∀ n l1 b1 l2 b2 (s : Str), runSubGo p T n l1 b1 s = runSubGo p T n l2 b2 s := by
  intro n l1 b1 l2 b2 s
  match n, s with
  | 0, s => rfl
  | n + 1, [] => rfl
  | n + 1, c :: cs =>
    by_cases hc : p c = true
    · simp only [runSubGo, if_pos hc]
      rw [hT _ l1 _ b1 l2 (List.dropWhile p cs).head? b2]
    · simp only [runSubGo, if_neg hc]

theorem head?_append_of_ne_nil (a b : Str) (h : a ≠ []) : (a ++ b).head? = a.head? := by
  cases a with
  | nil => exact absurd rfl h
  | cons c cs => simp

/-- Splitting a maximal-run substitution with a context-free replacement at a
boundary whose left side does not end in a run character. -/
theorem runSubGo_split (p : Char → Bool) (T : Str → Option Char → Option Char → Bool → Str)
    (hT : ∀ r l1 r1 b1 l2 r2 b2, T r l1 r1 b1 = T r l2 r2 b2) :
    ∀ n (a b : Str) left at1, (∀ d, a.getLast? = some d → p d = false) →
      (a ++ b).length ≤ n →
      runSubGo p T n left at1 (a ++ b)
        = runSubGo p T a.length left at1 a ++ runSubGo p T b.length none true b := by
  intro n
  induction n with
  | zero =>
    intro a b left at1 _ hn
    simp only [List.length_append] at hn
    have ha : a = [] := List.eq_nil_of_length_eq_zero (by omega)
    have hb : b = [] := List.eq_nil_of_length_eq_zero (by omega)
    subst ha; subst hb; rfl
  | succ n ih =>
    intro a b left at1 hlast hn
    match a with
    | [] =>
      simp only [List.nil_append, List.length_nil]
      rw [runSubGo_fuel_eq p T (n + 1) b.length b left at1 (by simpa using hn) (Nat.le_refl _)]
      rw [runSubGo_ctx_irrel p T hT _ left at1 none true]
      rfl
    | c :: a' =>
      by_cases hc : p c = true
      · -- the run starting at `c` ends inside `a`
        have hex : ∃ x ∈ a', p x = false := by
          cases ha' : a' with
          | nil =>
            exfalso
            have h1 := hlast c (by rw [ha']; simp)
            simp [hc] at h1
          | cons y ys =>
            subst ha'
            have hne2 : (y :: ys) ≠ ([] : Str) := by simp
            have hgl := List.getLast?_eq_getLast (y :: ys) hne2
            have hpd := hlast ((y :: ys).getLast hne2)
              (by simp only [List.getLast?_cons_cons]; exact hgl)
            exact ⟨(y :: ys).getLast hne2, List.getLast_mem hne2, hpd⟩
        have hane : a' ≠ [] := by
          obtain ⟨x, hx, _⟩ := hex
          exact List.ne_nil_of_mem hx
        have hne := dropWhile_ne_nil_of_exists p a' hex
        have hdwhead : ∀ d, (a'.dropWhile p).head? = some d → p d = false := by
          intro d hd
          have h2 := List.head?_dropWhile_not p a'
          rw [hd] at h2
          simpa using h2
        have hdhead : ∀ d, (a'.dropWhile p ++ b).head? = some d → p d = false := by
          intro d hd
          rw [head?_append_of_ne_nil _ _ hne] at hd
          exact hdwhead d hd
        have hrun : ∀ x ∈ c :: a'.takeWhile p, p x = true := by
          intro x hx
          rcases List.mem_cons.mp hx with h1 | h1
          · subst h1; exact hc
          · exact List.mem_takeWhile_imp h1
        have heq1 : c :: (a' ++ b) = (c :: a'.takeWhile p) ++ (a'.dropWhile p ++ b) := by
          rw [List.cons_append, ← List.append_assoc, List.takeWhile_append_dropWhile]
        have heq2 : c :: a' = (c :: a'.takeWhile p) ++ a'.dropWhile p := by
          rw [List.cons_append, List.takeWhile_append_dropWhile]
        have hlastdw : ∀ d, (a'.dropWhile p).getLast? = some d → p d = false := by
          intro d hd
          rw [dropWhile_getLast? p a' hne] at hd
          apply hlast
          cases a' with
          | nil => exact absurd rfl hane
          | cons y ys => simpa [List.getLast?_cons_cons] using hd
        have hlen : (a'.dropWhile p ++ b).length ≤ n := by
          have h1 : (a'.dropWhile p).length ≤ a'.length := (List.dropWhile_sublist p).length_le
          simp only [List.length_cons, List.length_append] at hn ⊢
          omega
        calc runSubGo p T (n + 1) left at1 (c :: a' ++ b)
            = runSubGo p T (n + 1) left at1 ((c :: a'.takeWhile p) ++ (a'.dropWhile p ++ b)) := by
              rw [List.cons_append, heq1]
          _ = T (c :: a'.takeWhile p) left (a'.dropWhile p ++ b).head? at1
                ++ runSubGo p T (a'.dropWhile p ++ b).length (c :: a'.takeWhile p).getLast? false
                  (a'.dropWhile p ++ b) := by
              rw [runSubGo_run p T (n + 1) left at1 _ _ (by simp) hrun hdhead
                (by
                  have h3 : (a'.takeWhile p).length + (a'.dropWhile p).length = a'.length := by
                    rw [← List.length_append, List.takeWhile_append_dropWhile]
                  simp only [List.length_cons, List.length_append] at hn ⊢
                  omega)]
          _ = T (c :: a'.takeWhile p) left (a'.dropWhile p).head? at1
                ++ (runSubGo p T (a'.dropWhile p).length (c :: a'.takeWhile p).getLast? false
                      (a'.dropWhile p)
                    ++ runSubGo p T b.length none true b) := by
              rw [head?_append_of_ne_nil _ _ hne]
              congr 1
              rw [runSubGo_fuel_eq p T (a'.dropWhile p ++ b).length n _ _ _ (Nat.le_refl _) hlen]
              exact ih (a'.dropWhile p) b _ false hlastdw hlen
          _ = runSubGo p T (c :: a').length left at1 (c :: a')
                ++ runSubGo p T b.length none true b := by
              conv_rhs => rw [heq2]
              rw [runSubGo_run p T ((c :: a'.takeWhile p) ++ a'.dropWhile p).length left at1 _ _
                (by simp) hrun hdwhead
                (by
                  have h3 : (a'.takeWhile p).length + (a'.dropWhile p).length = a'.length := by
                    rw [← List.length_append, List.takeWhile_append_dropWhile]
                  simp only [List.length_append, List.length_cons]
                  omega)]
              rw [List.append_assoc]
      · -- ordinary character copied on both sides
        have hlast' : ∀ d, a'.getLast? = some d → p d = false := by
          intro d hd
          apply hlast
          cases a' with
          | nil => simp at hd
          | cons y ys => simpa [List.getLast?_cons_cons] using hd
        have hlen : (a' ++ b).length ≤ n := by
          simp only [List.length_cons, List.length_append] at hn ⊢
          omega
        have hstep : runSubGo p T (n + 1) left at1 (c :: (a' ++ b))
            = c :: runSubGo p T n (some c) false (a' ++ b) := by
          simp only [runSubGo, if_neg hc]
        have hstep2 : runSubGo p T (c :: a').length left at1 (c :: a')
            = c :: runSubGo p T a'.length (some c) false a' := by
          simp only [List.length_cons, runSubGo, if_neg hc]
        rw [List.cons_append, hstep, ih a' b (some c) false hlast' hlen, hstep2]
        rw [List.cons_append]

theorem runSub_append_ctxfree (p : Char → Bool) (T : Str → Option Char → Option Char → Bool → Str)
    (hT : ∀ r l1 r1 b1 l2 r2 b2, T r l1 r1 b1 = T r l2 r2 b2)
    (a b : Str) (hlast : ∀ d, a.getLast? = some d → p d = false) :
    runSub p T (a ++ b) = runSub p T a ++ runSub p T b := by
  unfold runSub
  rw [runSubGo_split p T hT (a ++ b).length a b none true hlast (Nat.le_refl _)]

/-!  ## Claim C6  -/

theorem mem_of_getLast?_some (l : Str) (d : Char) (h : l.getLast? = some d) : d ∈ l := by
  cases l with
  | nil => simp at h
  | cons c cs =>
    have hne : (c :: cs) ≠ ([] : Str) := by simp
    rw [List.getLast?_eq_getLast (c :: cs) hne] at h
    have h2 : (c :: cs).getLast hne = d := by injection h
    rw [← h2]
    exact List.getLast_mem hne

theorem runSub_pfree_id (p : Char → Bool) (T : Str → Option Char → Option Char → Bool → Str)
    (s : Str) (h : ∀ c ∈ s, p c = false) : runSub p T s = s := by
  have h2 := runSubGo_gap p T s s.length none true [] h (by simp)
  simp only [List.append_nil] at h2
  rw [runSub, h2]
  simp [runSubGo]

theorem bangRepl_no_qmark (r : Str) (l rr : Option Char) (a : Bool)
    (hl : l ≠ some '？') (hr : rr ≠ some '？') :
    bangRepl r l rr a = c6RunP1 r := by
  unfold bangRepl c6RunP1
  rw [if_neg (by
    rintro (h | h)
    · exact hl h
    · exact hr h)]
  by_cases h3 : r.length = 3
  · simp [h3]
  · simp only [if_neg h3]
    by_cases h4 : 4 ≤ r.length
    · simp only [if_pos h4]
      have : (if r.length % 2 = 1 then r.length + 1 else r.length) / 2 = (r.length + 1) / 2 := by
        by_cases hodd : r.length % 2 = 1
        · simp only [if_pos hodd]
        · simp only [if_neg hodd]; omega
      rw [this]
    · simp only [if_neg h4]

theorem getLast?_bang_run (r : Str) (hne : r ≠ []) (hall : ∀ c ∈ r, c = '！') :
    r.getLast? = some '！' := by
  rw [List.getLast?_eq_getLast r hne]
  exact congrArg some (hall _ (List.getLast_mem hne))

/-- The replacement of the first pass, summed over the whole decomposition,
under the no-`？`-neighbor hypotheses. -/
theorem runsOut_bang (ps : List (Str × Str)) :
    ∀ left at1, left ≠ some '？' →
      RunsWF (fun c => c = '！') ps →
      (∀ q ∈ ps, q.2.head? ≠ some '？' ∧ q.2.getLast? ≠ some '？') →
      runsOut bangRepl left at1 ps = p1Out ps := by
  induction ps with
  | nil => intro left at1 _ _ _; rfl
  | cons q rest ih =>
    intro left at1 hleft hwf hq
    obtain ⟨r, g⟩ := q
    cases hwf with
    | cons hr hrall hgall hinner hrest =>
      have hq1 := hq (r, g) (by simp)
      simp only [runsOut, p1Out]
      rw [bangRepl_no_qmark r left g.head? at1 hleft hq1.1]
      rw [ih (lastOr g r.getLast?) false
        (by
          intro h
          unfold lastOr at h
          cases hg : g.getLast? with
          | some d =>
            rw [hg] at h
            exact hq1.2 (h ▸ hg)
          | none =>
            rw [hg] at h
            have hbang : r.getLast? = some '！' := getLast?_bang_run r hr
              (by intro c hc; have := hrall c hc; simpa using this)
            rw [hbang] at h
            simp at h)
        hrest (fun q2 hq2 => hq q2 (by simp [hq2]))]

theorem mixedRepl_ctxfree :
    ∀ (r : Str) (l1 r1 : Option Char) (b1 : Bool) (l2 r2 : Option Char) (b2 : Bool),
      mixedRepl r l1 r1 b1 = mixedRepl r l2 r2 b2 := fun _ _ _ _ _ _ _ => rfl

theorem c6RunP1_long_pfree (r : Str) (h : 3 ≤ r.length) :
    ∀ c ∈ c6RunP1 r, isBangQ c = false := by
  intro c hc
  unfold c6RunP1 at hc
  by_cases h3 : r.length = 3
  · rw [if_pos h3] at hc
    have hall : ∀ x ∈ tcy (toL "!!!"), isBangQ x = false := by decide
    exact hall c hc
  · rw [if_neg h3, if_pos (by omega)] at hc
    obtain ⟨l, hl, hcl⟩ := List.mem_flatten.mp hc
    rw [List.eq_of_mem_replicate hl] at hcl
    have hall : ∀ x ∈ tcy (toL "!!"), isBangQ x = false := by decide
    exact hall c hcl

theorem isBangQ_false_of (d : Char) (h1 : d ≠ '！') (h2 : d ≠ '？') : isBangQ d = false := by
  unfold isBangQ
  simp [h1, h2]

theorem mixedRepl_short (r : Str) (_ : r ≠ []) (_ : ∀ c ∈ r, c = '！')
    (hlen : r.length ≤ 2) (l rr : Option Char) (a : Bool) :
    mixedRepl r l rr a = c6Run r := by
  unfold mixedRepl c6Run
  have h3 : r.length ≠ 3 := by omega
  have h4 : ¬(4 ≤ r.length) := by omega
  by_cases h2 : r.length = 2
  · simp [h2]
  · have hcond : ¬(r.length = 3 ∧ (r = toL "！！？" ∨ r = toL "？！！")) := by
      rintro ⟨h, _⟩
      exact h3 h
    simp [if_neg h2, if_neg hcond, if_neg h3, if_neg h4]

theorem c6Run_eq_p1_of_long (r : Str) (h : 3 ≤ r.length) : c6Run r = c6RunP1 r := by
  unfold c6Run c6RunP1
  by_cases h3 : r.length = 3
  · simp [h3]
  · simp only [if_neg h3, if_pos (show 4 ≤ r.length by omega)]

/-- The mixed pass applied to the output of the bang pass, piece by piece. -/
theorem pass2_p1Out :
    ∀ (ps : List (Str × Str)),
      RunsWF (fun c => c = '！') ps →
      (∀ q ∈ ps, q.2.head? ≠ some '？' ∧ q.2.getLast? ≠ some '？') →
      runSub isBangQ mixedRepl (p1Out ps) = c6Out ps := by
  intro ps
  induction ps with
  | nil => intro _ _; rfl
  | cons q rest ih =>
    intro hwf hq
    obtain ⟨r, g⟩ := q
    cases hwf with
    | cons hr hrall hgall hinner hrest =>
      have hq1 := hq (r, g) (by simp)
      have hgbang : ∀ c ∈ g, c ≠ '！' := by
        intro c hc
        have := hgall c hc
        simpa using this
      have hgq : ∀ c, g.getLast? = some c → isBangQ c = false := by
        intro c hc
        apply isBangQ_false_of
        · exact hgbang c (mem_of_getLast?_some g c hc)
        · intro h; exact hq1.2 (h ▸ hc)
      have hrbang : ∀ c ∈ r, c = '！' := by
        intro c hc
        have := hrall c hc
        simpa using this
      have htail : runSub isBangQ mixedRepl (g ++ p1Out rest)
          = runSub isBangQ mixedRepl g ++ c6Out rest := by
        cases hg : g with
        | nil =>
          cases hrestn : rest with
          | nil => simp [p1Out, c6Out, runSub, runSubGo]
          | cons q2 rest2 =>
            exact absurd (hinner (by rw [hrestn]; simp)) (by simp [hg])
        | cons y ys =>
          rw [← hg]
          rw [runSub_append_ctxfree isBangQ mixedRepl mixedRepl_ctxfree g (p1Out rest) hgq]
          rw [ih hrest (fun q2 hq2 => hq q2 (by simp [hq2]))]
      by_cases hlong : 3 ≤ r.length
      · have hfree := c6RunP1_long_pfree r hlong
        have hplast : ∀ d, (c6RunP1 r).getLast? = some d → isBangQ d = false :=
          fun d hd => hfree d (mem_of_getLast?_some _ _ hd)
        have hsplit : p1Out ((r, g) :: rest) = c6RunP1 r ++ (g ++ p1Out rest) := by
          simp [p1Out, List.append_assoc]
        rw [hsplit,
          runSub_append_ctxfree isBangQ mixedRepl mixedRepl_ctxfree _ _ hplast,
          runSub_pfree_id isBangQ mixedRepl _ hfree, htail]
        simp [c6Out, c6Run_eq_p1_of_long r hlong, List.append_assoc]
      · -- short run: the mixed pass consumes it as a maximal run
        have hshort : c6RunP1 r = r := by
          unfold c6RunP1
          rw [if_neg (by omega), if_neg (by omega)]
        have hrp2 : ∀ c ∈ r, isBangQ c = true := by
          intro c hc
          rw [hrbang c hc]
          rfl
        have hheadfail : ∀ d, (g ++ p1Out rest).head? = some d → isBangQ d = false := by
          intro d hd
          cases hg : g with
          | nil =>
            cases hrestn : rest with
            | nil => rw [hg, hrestn] at hd; simp [p1Out] at hd
            | cons q2 rest2 =>
              exact absurd (hinner (by rw [hrestn]; simp)) (by simp [hg])
          | cons y ys =>
            rw [hg] at hd
            simp only [List.cons_append, List.head?_cons, Option.some.injEq] at hd
            rw [← hd]
            apply isBangQ_false_of
            · exact hgbang y (by rw [hg]; simp)
            · intro h
              apply hq1.1
              rw [hg, h]
              rfl
        have hsplit : p1Out ((r, g) :: rest) = r ++ (g ++ p1Out rest) := by
          simp [p1Out, hshort, List.append_assoc]
        rw [hsplit]
        unfold runSub
        rw [runSubGo_run isBangQ mixedRepl _ none true r (g ++ p1Out rest) hr hrp2 hheadfail
          (by simp)]
        rw [mixedRepl_short r hr hrbang (by omega) none (g ++ p1Out rest).head? true]
        rw [runSubGo_ctx_irrel isBangQ mixedRepl mixedRepl_ctxfree _ r.getLast? false none true]
        have : runSubGo isBangQ mixedRepl (g ++ p1Out rest).length none true (g ++ p1Out rest)
            = runSub isBangQ mixedRepl (g ++ p1Out rest) := rfl
        rw [this, htail]
        simp [c6Out, List.append_assoc]

/-- Claim C6 (counterexample): a run of `！` with a `？` immediate neighbor
is not always left untouched by `_convert_tatechuyoko`: the `！+` pass skips
`！！` in `！！？`, but the mixed pass then rewrites the whole of `！！？` to a
wrapped ASCII run. -/
theorem tatechuyoko_qmark_neighbor_not_untouched :
    convertTatechuyoko (toL "！！？") = tcy (toL "!!?") ∧
    tcy (toL "!!?") ≠ toL "！！？" := by
  exact ⟨by decide, by decide⟩

/-- Claim C6 (amended): on a decomposition into maximal `！` runs none of
whose neighbors is `？`, `_convert_tatechuyoko` rewrites a 3-run to one
wrapped `!!!`, an n-run with n ≥ 4 to `ceil(n/2)` individually wrapped `!!`
pairs (so a 5-run yields three), a 2-run to one wrapped `!!`, leaves 1-runs,
and processes the gaps with the mixed `[！？]+` pass; runs with a `？`
neighbor are left to the mixed pass, which wraps `！！？` (and leaves e.g.
`！！！？` untouched). -/
theorem convert_tatechuyoko_spec (g₀ : Str) (ps : List (Str × Str))
    (hg₀ : ∀ c ∈ g₀, c ≠ '！')
    (hwf : RunsWF (fun c => c = '！') ps)
    (hq₀ : g₀.getLast? ≠ some '？')
    (hq : ∀ q ∈ ps, q.2.head? ≠ some '？' ∧ q.2.getLast? ≠ some '？') :
    convertTatechuyoko (g₀ ++ mixStr ps)
      = runSub isBangQ mixedRepl g₀ ++ c6Out ps ∧
    convertTatechuyoko (toL "！！？") = tcy (toL "!!?") ∧
    convertTatechuyoko (toL "！！！？") = toL "！！！？" := by
  refine ⟨?_, by decide, by decide⟩
  unfold convertTatechuyoko
  rw [show runSub (fun c => c = '！') bangRepl (g₀ ++ mixStr ps)
      = g₀ ++ runsOut bangRepl (lastOr g₀ none) g₀.isEmpty ps from
    runSub_decomp _ bangRepl g₀ ps (fun c hc => by simp [hg₀ c hc]) hwf]
  rw [runsOut_bang ps (lastOr g₀ none) g₀.isEmpty
    (by
      unfold lastOr
      cases hg : g₀.getLast? with
      | none => simp
      | some d =>
        intro h
        simp only [Option.some.injEq] at h
        exact hq₀ (by rw [hg, h]))
    hwf hq]
  rw [runSub_append_ctxfree isBangQ mixedRepl mixedRepl_ctxfree g₀ (p1Out ps)
    (by
      intro d hd
      apply isBangQ_false_of
      · exact hg₀ d (mem_of_getLast?_some g₀ d hd)
      · intro h
        exact hq₀ (h ▸ hd))]
  rw [pass2_p1Out ps hwf hq]

/-- Claim C6 (witness): `"あ！！！！！い"` — a 5-run with no `？` neighbor
becomes three wrapped `!!` pairs. -/
theorem convert_tatechuyoko_spec_witness :
    convertTatechuyoko (toL "あ" ++ mixStr [(toL "！！！！！", toL "い")])
      = runSub isBangQ mixedRepl (toL "あ") ++ c6Out [(toL "！！！！！", toL "い")] ∧
    runSub isBangQ mixedRepl (toL "あ") ++ c6Out [(toL "！！！！！", toL "い")]
      = toL "あ" ++ tcy (toL "!!") ++ tcy (toL "!!") ++ tcy (toL "!!") ++ toL "い" := by
  constructor
  · exact (convert_tatechuyoko_spec (toL "あ") [(toL "！！！！！", toL "い")]
      (by decide)
      (RunsWF.cons (by decide) (by decide) (by decide) (fun h => absurd rfl h) RunsWF.nil)
      (by decide) (by decide)).1
  · decide

/-!  ## Theory of `replaceStr` and `occursIn`  -/

theorem replaceGo_fuel_eq (p r : Str) (_ : p ≠ []) :
    ∀ n m (s : Str), s.length ≤ n → s.length ≤ m →
      replaceGo p r n s = replaceGo p r m s := by
  intro n
  induction n with
  | zero =>
    intro m s h1 _
    have : s = [] := List.eq_nil_of_length_eq_zero (Nat.le_zero.mp h1)
    subst this
    cases m <;> simp [replaceGo]
  | succ n ih =>
    intro m s h1 h2
    match s with
    | [] => cases m <;> simp [replaceGo]
    | c :: cs =>
      match m with
      | 0 => simp at h2
      | m + 1 =>
        by_cases hpre : p.isPrefixOf (c :: cs)
        · simp only [replaceGo, if_pos hpre]
          congr 1
          apply ih
          · have := List.length_drop (p.length - 1) cs
            simp only [List.length_cons] at h1
            omega
          · have := List.length_drop (p.length - 1) cs
            simp only [List.length_cons] at h2
            omega
        · simp only [replaceGo, if_neg hpre]
          congr 1
          apply ih
          · simp only [List.length_cons] at h1; omega
          · simp only [List.length_cons] at h2; omega

theorem occursIn_cons (p : Str) (c : Char) (cs : Str) :
    occursIn p (c :: cs) = (p.isPrefixOf (c :: cs) || occursIn p cs) := rfl

theorem occursIn_tail_false (p : Str) (c : Char) (cs : Str)
    (h : occursIn p (c :: cs) = false) : occursIn p cs = false := by
  rw [occursIn_cons, Bool.or_eq_false_iff] at h
  exact h.2

theorem not_isPrefixOf_of_occursIn_false (p s : Str) (h : occursIn p s = false) :
    p.isPrefixOf s = false := by
  cases s with
  | nil => simpa [occursIn] using h
  | cons c cs =>
    rw [occursIn_cons, Bool.or_eq_false_iff] at h
    exact h.1

theorem replaceGo_id_of_not_occurs (p r : Str) :
    ∀ n (s : Str), occursIn p s = false → replaceGo p r n s = s := by
  intro n
  induction n with
  | zero => intro s _; rfl
  | succ n ih =>
    intro s h
    match s with
    | [] => rfl
    | c :: cs =>
      have h1 := not_isPrefixOf_of_occursIn_false p (c :: cs) h
      simp only [replaceGo, h1, Bool.false_eq_true, if_false]
      rw [ih cs (occursIn_tail_false p c cs h)]

theorem replaceStr_id_of_not_occurs (p r s : Str) (h : occursIn p s = false) :
    replaceStr p r s = s :=
  replaceGo_id_of_not_occurs p r s.length s h

theorem pair_prefix_iff (c x : Char) (t : Str) :
    [c, c].isPrefixOf (x :: t) = true ↔ x = c ∧ t.head? = some c := by
  cases t with
  | nil =>
    simp [List.isPrefixOf]
  | cons y ys =>
    simp only [List.isPrefixOf, Bool.and_eq_true, beq_iff_eq, List.head?_cons,
      Option.some.injEq]
    constructor
    · rintro ⟨h1, h2, _⟩
      exact ⟨h1.symm, h2.symm⟩
    · rintro ⟨h1, h2⟩
      exact ⟨h1.symm, h2.symm, trivial⟩

/-- Splitting `str.replace` with a two-identical-character pattern at a
boundary not matched across. -/
theorem replaceGo_append_pair (c : Char) (r : Str) :
    ∀ n (a b : Str),
      (a.getLast? ≠ some c ∨ b.head? ≠ some c) →
      (a ++ b).length ≤ n →
      replaceGo [c, c] r n (a ++ b)
        = replaceGo [c, c] r a.length a ++ replaceGo [c, c] r b.length b := by
  intro n
  induction n with
  | zero =>
    intro a b _ hn
    simp only [List.length_append] at hn
    have ha : a = [] := List.eq_nil_of_length_eq_zero (by omega)
    have hb : b = [] := List.eq_nil_of_length_eq_zero (by omega)
    subst ha; subst hb; rfl
  | succ n ih =>
    intro a b hbd hn
    match a with
    | [] =>
      simp only [List.nil_append, List.length_nil]
      rw [replaceGo_fuel_eq [c, c] r (by simp) (n + 1) b.length b (by simpa using hn)
        (Nat.le_refl _)]
      rfl
    | [x] =>
      have hx : ¬([c, c].isPrefixOf (x :: b) = true) := by
        rw [pair_prefix_iff]
        rintro ⟨h1, h2⟩
        rcases hbd with hbd | hbd
        · exact hbd (by simp [h1])
        · exact hbd h2
      have hx2 : ¬([c, c].isPrefixOf ([x] : Str) = true) := by
        rw [pair_prefix_iff]
        rintro ⟨_, h2⟩
        simp at h2
      have hL : replaceGo [c, c] r (n + 1) (x :: b) = x :: replaceGo [c, c] r n b := by
        simp only [replaceGo, if_neg hx]
      have hR : replaceGo [c, c] r ([x] : Str).length [x] = [x] := by
        simp only [List.length_cons, List.length_nil, replaceGo, if_neg hx2]
      rw [List.singleton_append, hL, hR,
        replaceGo_fuel_eq [c, c] r (by simp) n b.length b
          (by simp only [List.length_append, List.length_cons, List.length_nil] at hn; omega)
          (Nat.le_refl _)]
      rfl
    | x :: y :: a' =>
      by_cases hxy : x = c ∧ y = c
      · have h1 : x = c := hxy.1
        have h2 : y = c := hxy.2
        have hpre : [c, c].isPrefixOf (x :: y :: a') = true := by
          rw [pair_prefix_iff]
          exact ⟨h1, by simp [h2]⟩
        have hpre2 : [c, c].isPrefixOf (x :: (y :: a' ++ b)) = true := by
          rw [pair_prefix_iff]
          exact ⟨h1, by simp [h2]⟩
        have hL : replaceGo [c, c] r (n + 1) (x :: (y :: a' ++ b))
            = r ++ replaceGo [c, c] r n (a' ++ b) := by
          simp only [replaceGo, if_pos hpre2]
          simp
        have hR : replaceGo [c, c] r (x :: y :: a').length (x :: y :: a')
            = r ++ replaceGo [c, c] r (a'.length + 1) a' := by
          simp only [List.length_cons, replaceGo, if_pos hpre]
          simp
        rw [List.cons_append, hL, hR]
        have hbd' : a'.getLast? ≠ some c ∨ b.head? ≠ some c := by
          rcases hbd with hbd | hbd
          · cases ha' : a' with
            | nil =>
              exfalso
              apply hbd
              rw [ha']
              simp [List.getLast?_cons_cons, h2]
            | cons z zs =>
              left
              intro hga
              apply hbd
              rw [← hga, ha']
              simp [List.getLast?_cons_cons]
          · right; exact hbd
        rw [ih a' b hbd'
          (by simp only [List.length_cons, List.length_append] at hn ⊢; omega)]
        rw [List.append_assoc]
        congr 2
        apply replaceGo_fuel_eq [c, c] r (by simp)
        · exact Nat.le_refl _
        · omega
      · have hnpre : ¬([c, c].isPrefixOf (x :: y :: a') = true) := by
          rw [pair_prefix_iff]
          rintro ⟨h1, h2⟩
          simp only [List.head?_cons, Option.some.injEq] at h2
          exact hxy ⟨h1, h2⟩
        have hnpre2 : ¬([c, c].isPrefixOf (x :: (y :: a' ++ b)) = true) := by
          rw [pair_prefix_iff]
          rintro ⟨h1, h2⟩
          simp only [List.cons_append, List.head?_cons, Option.some.injEq] at h2
          exact hxy ⟨h1, h2⟩
        have hL : replaceGo [c, c] r (n + 1) (x :: (y :: a' ++ b))
            = x :: replaceGo [c, c] r n (y :: a' ++ b) := by
          simp only [replaceGo, if_neg hnpre2]
        have hR : replaceGo [c, c] r (x :: y :: a').length (x :: y :: a')
            = x :: replaceGo [c, c] r (y :: a').length (y :: a') := by
          simp only [List.length_cons, replaceGo, if_neg hnpre]
        have hbd' : (y :: a').getLast? ≠ some c ∨ b.head? ≠ some c := by
          rcases hbd with hbd | hbd
          · left
            intro hga
            apply hbd
            rw [← hga]
            simp [List.getLast?_cons_cons]
          · right; exact hbd
        rw [List.cons_append, hL, hR,
          ih (y :: a') b hbd'
            (by simp only [List.length_cons, List.length_append] at hn ⊢; omega)]
        rfl

theorem replaceStr_append_pair (c : Char) (r : Str) (a b : Str)
    (hbd : a.getLast? ≠ some c ∨ b.head? ≠ some c) :
    replaceStr [c, c] r (a ++ b) = replaceStr [c, c] r a ++ replaceStr [c, c] r b := by
  unfold replaceStr
  exact replaceGo_append_pair c r (a ++ b).length a b hbd (Nat.le_refl _)

/-!  ## Claim C7  -/

theorem occursIn_false_of_all_ne (c : Char) (p : Str) (hp : p.head? = some c) :
    ∀ (s : Str), (∀ x ∈ s, x ≠ c) → occursIn p s = false := by
  intro s
  induction s with
  | nil =>
    intro _
    match p, hp with
    | c2 :: ps, _ => simp [occursIn, List.isPrefixOf]
  | cons x cs ih =>
    intro h
    rw [occursIn_cons, Bool.or_eq_false_iff]
    refine ⟨?_, ih fun y hy => h y (by simp [hy])⟩
    match p, hp with
    | c2 :: ps, hp =>
      have hbeq : (c2 == x) = false := by
        have hc2 : c2 = c := by simpa using hp
        have hx : x ≠ c := h x (by simp)
        rw [hc2]
        exact beq_eq_false_iff_ne.mpr fun hcx => hx hcx.symm
      simp [List.isPrefixOf, hbeq]

theorem mem_three_parts (q ch : Char) (n : Nat) (pre post : Str)
    (h1 : ∀ x ∈ pre, x ≠ q) (h2 : ch ≠ q) (h3 : ∀ x ∈ post, x ≠ q) :
    ∀ x ∈ pre ++ (List.replicate n ch ++ post), x ≠ q := by
  intro x hx
  rcases List.mem_append.mp hx with h | h
  · exact h1 x h
  · rcases List.mem_append.mp h with h | h
    · rw [List.eq_of_mem_replicate h]
      exact h2
    · exact h3 x h

theorem ellipsis_runsWF (q : Char) (n : Nat) (post : Str) (hn : 1 ≤ n)
    (hpost : ∀ x ∈ post, x ≠ q) :
    RunsWF (fun c => c = q) [(List.replicate n q, post)] := by
  refine RunsWF.cons ?_ ?_ ?_ ?_ RunsWF.nil
  · intro h
    have h2 := congrArg List.length h
    simp at h2
    omega
  · intro c hc
    simp [List.eq_of_mem_replicate hc]
  · intro c hc
    simp [hpost c hc]
  · intro h
    exact absurd rfl h

/-- The single `re.sub` pass for ellipsis-source character `q` on a maximal
run of `n ≥ 3` copies of `q` with no dash neighbor: the run folds to
`ceil(n/6)*2` ellipsis characters. -/
theorem ellipsis_fold_pass (q : Char) (n : Nat) (pre post : Str) (hn : 3 ≤ n)
    (hpre : ∀ x ∈ pre, x ≠ q) (hpost : ∀ x ∈ post, x ≠ q)
    (hL : pre.getLast? ≠ some '―') (hR : post.head? ≠ some '―') :
    runSub (fun c => c = q) ellipsisRepl (pre ++ (List.replicate n q ++ post))
      = pre ++ (List.replicate (((n + 5) / 6) * 2) '…' ++ post) := by
  have hwf := ellipsis_runsWF q n post (by omega) hpost
  have hgap : ∀ c ∈ pre, (fun c => decide (c = q)) c = false := by
    intro c hc
    simp [hpre c hc]
  have hdec := runSub_decomp (fun c => c = q) ellipsisRepl pre
    [(List.replicate n q, post)] hgap hwf
  have hmix : mixStr [(List.replicate n q, post)] = List.replicate n q ++ post := by
    simp [mixStr]
  rw [hmix] at hdec
  rw [hdec]
  congr 1
  have hnd : ¬(lastOr pre none = some '―' ∨ post.head? = some '―') := by
    rintro (h | h)
    · rcases hgl : pre.getLast? with _ | d
      · simp [lastOr, hgl] at h
      · simp only [lastOr, hgl] at h
        apply hL
        rw [hgl]
        exact h
    · exact hR h
  have hT : ellipsisRepl (List.replicate n q) (lastOr pre none) post.head? pre.isEmpty
      = List.replicate (((n + 5) / 6) * 2) '…' := by
    unfold ellipsisRepl
    rw [List.length_replicate, if_neg (by omega), if_neg hnd]
  simp only [runsOut, hT]
  simp

/-- The single `re.sub` pass for ellipsis-source character `q` on a maximal
run of `q` with a dash neighbor: the run is left untouched by that pass. -/
theorem ellipsis_keep_pass (q : Char) (n : Nat) (pre post : Str) (hn : 1 ≤ n)
    (hpre : ∀ x ∈ pre, x ≠ q) (hpost : ∀ x ∈ post, x ≠ q)
    (hdash : pre.getLast? = some '―' ∨ post.head? = some '―') :
    runSub (fun c => c = q) ellipsisRepl (pre ++ (List.replicate n q ++ post))
      = pre ++ (List.replicate n q ++ post) := by
  have hwf := ellipsis_runsWF q n post hn hpost
  have hgap : ∀ c ∈ pre, (fun c => decide (c = q)) c = false := by
    intro c hc
    simp [hpre c hc]
  have hdec := runSub_decomp (fun c => c = q) ellipsisRepl pre
    [(List.replicate n q, post)] hgap hwf
  have hmix : mixStr [(List.replicate n q, post)] = List.replicate n q ++ post := by
    simp [mixStr]
  rw [hmix] at hdec
  rw [hdec]
  congr 1
  have hcond : lastOr pre none = some '―' ∨ post.head? = some '―' := by
    rcases hdash with h | h
    · left
      simp [lastOr, h]
    · right
      exact h
  have hT : ellipsisRepl (List.replicate n q) (lastOr pre none) post.head? pre.isEmpty
      = List.replicate n q := by
    unfold ellipsisRepl
    rw [List.length_replicate]
    by_cases h3 : n < 3
    · rw [if_pos h3]
    · rw [if_neg h3, if_pos hcond]
  simp only [runsOut, hT]
  simp

/-- The two trailing `str.replace` passes of `_convert_horizontal_ellipsis`
are the identity on a string free of `。` and `、`. -/
theorem ellipsis_tail_passes (u : Str) (h1 : ∀ x ∈ u, x ≠ '。') (h2 : ∀ x ∈ u, x ≠ '、') :
    replaceStr (toL "、、") (toL "、") (replaceStr (toL "。。") (toL "。") u) = u := by
  rw [replaceStr_id_of_not_occurs (toL "。。") (toL "。") u
      (occursIn_false_of_all_ne '。' (toL "。。") (by decide) u h1),
    replaceStr_id_of_not_occurs (toL "、、") (toL "、") u
      (occursIn_false_of_all_ne '、' (toL "、、") (by decide) u h2)]

theorem convertHorizontalEllipsis_eq (s : Str) :
    convertHorizontalEllipsis s =
      replaceStr (toL "、、") (toL "、")
        (replaceStr (toL "。。") (toL "。")
          (runSub (fun c => c = '．') ellipsisRepl
            (runSub (fun c => c = '、') ellipsisRepl
              (runSub (fun c => c = '。') ellipsisRepl
                (runSub (fun c => c = '・') ellipsisRepl s))))) := rfl

/-- C7 counterexample: the claim says a run adjacent to `―` is left
untouched, but the trailing `。。 → 。` replace pass of
`_convert_horizontal_ellipsis` shrinks a dash-adjacent `。` run that the
`re.sub` passes had preserved: `―。。。` becomes `―。。`. -/
theorem horizontal_ellipsis_dash_adjacent_not_untouched :
    convertHorizontalEllipsis (toL "―。。。") = toL "―。。"
    ∧ convertHorizontalEllipsis (toL "―。。。") ≠ toL "―。。。" := by
  constructor
  · decide
  · decide

/-- C7 (amended): in `_convert_horizontal_ellipsis`, take a maximal run of
`n` copies of one of `・`, `。`, `、`, `．` (context `pre`/`post` free of all
four characters, so the run is maximal and the other passes are inert).
If `n ≥ 3` and neither neighbor is `―`, the run folds to exactly
`ceil(n/6)*2` copies of `…`.  If the run character is `・` or `．` and a
neighbor is `―`, the run is left untouched — but for `。` (and `、`)
dash-adjacent runs the trailing pair-collapse passes still rewrite them, as
the separate counterexample shows, so the claim's untouched clause holds
only for `・` and `．`. -/
theorem convert_horizontal_ellipsis_spec (ch : Char) (n : Nat) (pre post : Str)
    (hpre : ∀ x ∈ pre, x ≠ '・' ∧ x ≠ '。' ∧ x ≠ '、' ∧ x ≠ '．')
    (hpost : ∀ x ∈ post, x ≠ '・' ∧ x ≠ '。' ∧ x ≠ '、' ∧ x ≠ '．') :
    ((ch = '・' ∨ ch = '。' ∨ ch = '、' ∨ ch = '．') → 3 ≤ n →
      pre.getLast? ≠ some '―' → post.head? ≠ some '―' →
      convertHorizontalEllipsis (pre ++ (List.replicate n ch ++ post))
        = pre ++ (List.replicate (((n + 5) / 6) * 2) '…' ++ post))
    ∧ ((ch = '・' ∨ ch = '．') → 1 ≤ n →
      (pre.getLast? = some '―' ∨ post.head? = some '―') →
      convertHorizontalEllipsis (pre ++ (List.replicate n ch ++ post))
        = pre ++ (List.replicate n ch ++ post)) := by
  constructor
  · intro hch hn hL hR
    rw [convertHorizontalEllipsis_eq]
    rcases hch with rfl | rfl | rfl | rfl
    · rw [ellipsis_fold_pass '・' n pre post hn
          (fun x hx => (hpre x hx).1) (fun x hx => (hpost x hx).1) hL hR,
        runSub_pfree_id (fun c => c = '。') ellipsisRepl
          (pre ++ (List.replicate (((n + 5) / 6) * 2) '…' ++ post)) (by
          intro c hc
          have h := mem_three_parts '。' '…' (((n + 5) / 6) * 2) pre post
            (fun x hx => (hpre x hx).2.1) (by decide) (fun x hx => (hpost x hx).2.1) c hc
          simp [h]),
        runSub_pfree_id (fun c => c = '、') ellipsisRepl
          (pre ++ (List.replicate (((n + 5) / 6) * 2) '…' ++ post)) (by
          intro c hc
          have h := mem_three_parts '、' '…' (((n + 5) / 6) * 2) pre post
            (fun x hx => (hpre x hx).2.2.1) (by decide) (fun x hx => (hpost x hx).2.2.1) c hc
          simp [h]),
        runSub_pfree_id (fun c => c = '．') ellipsisRepl
          (pre ++ (List.replicate (((n + 5) / 6) * 2) '…' ++ post)) (by
          intro c hc
          have h := mem_three_parts '．' '…' (((n + 5) / 6) * 2) pre post
            (fun x hx => (hpre x hx).2.2.2) (by decide) (fun x hx => (hpost x hx).2.2.2) c hc
          simp [h]),
        ellipsis_tail_passes (pre ++ (List.replicate (((n + 5) / 6) * 2) '…' ++ post))
          (mem_three_parts '。' '…' (((n + 5) / 6) * 2) pre post
            (fun x hx => (hpre x hx).2.1) (by decide) (fun x hx => (hpost x hx).2.1))
          (mem_three_parts '、' '…' (((n + 5) / 6) * 2) pre post
            (fun x hx => (hpre x hx).2.2.1) (by decide) (fun x hx => (hpost x hx).2.2.1))]
    · rw [runSub_pfree_id (fun c => c = '・') ellipsisRepl
          (pre ++ (List.replicate n '。' ++ post)) (by
          intro c hc
          have h := mem_three_parts '・' '。' n pre post
            (fun x hx => (hpre x hx).1) (by decide) (fun x hx => (hpost x hx).1) c hc
          simp [h]),
        ellipsis_fold_pass '。' n pre post hn
          (fun x hx => (hpre x hx).2.1) (fun x hx => (hpost x hx).2.1) hL hR,
        runSub_pfree_id (fun c => c = '、') ellipsisRepl
          (pre ++ (List.replicate (((n + 5) / 6) * 2) '…' ++ post)) (by
          intro c hc
          have h := mem_three_parts '、' '…' (((n + 5) / 6) * 2) pre post
            (fun x hx => (hpre x hx).2.2.1) (by decide) (fun x hx => (hpost x hx).2.2.1) c hc
          simp [h]),
        runSub_pfree_id (fun c => c = '．') ellipsisRepl
          (pre ++ (List.replicate (((n + 5) / 6) * 2) '…' ++ post)) (by
          intro c hc
          have h := mem_three_parts '．' '…' (((n + 5) / 6) * 2) pre post
            (fun x hx => (hpre x hx).2.2.2) (by decide) (fun x hx => (hpost x hx).2.2.2) c hc
          simp [h]),
        ellipsis_tail_passes (pre ++ (List.replicate (((n + 5) / 6) * 2) '…' ++ post))
          (mem_three_parts '。' '…' (((n + 5) / 6) * 2) pre post
            (fun x hx => (hpre x hx).2.1) (by decide) (fun x hx => (hpost x hx).2.1))
          (mem_three_parts '、' '…' (((n + 5) / 6) * 2) pre post
            (fun x hx => (hpre x hx).2.2.1) (by decide) (fun x hx => (hpost x hx).2.2.1))]
    · rw [runSub_pfree_id (fun c => c = '・') ellipsisRepl
          (pre ++ (List.replicate n '、' ++ post)) (by
          intro c hc
          have h := mem_three_parts '・' '、' n pre post
            (fun x hx => (hpre x hx).1) (by decide) (fun x hx => (hpost x hx).1) c hc
          simp [h]),
        runSub_pfree_id (fun c => c = '。') ellipsisRepl
          (pre ++ (List.replicate n '、' ++ post)) (by
          intro c hc
          have h := mem_three_parts '。' '、' n pre post
            (fun x hx => (hpre x hx).2.1) (by decide) (fun x hx => (hpost x hx).2.1) c hc
          simp [h]),
        ellipsis_fold_pass '、' n pre post hn
          (fun x hx => (hpre x hx).2.2.1) (fun x hx => (hpost x hx).2.2.1) hL hR,
        runSub_pfree_id (fun c => c = '．') ellipsisRepl
          (pre ++ (List.replicate (((n + 5) / 6) * 2) '…' ++ post)) (by
          intro c hc
          have h := mem_three_parts '．' '…' (((n + 5) / 6) * 2) pre post
            (fun x hx => (hpre x hx).2.2.2) (by decide) (fun x hx => (hpost x hx).2.2.2) c hc
          simp [h]),
        ellipsis_tail_passes (pre ++ (List.replicate (((n + 5) / 6) * 2) '…' ++ post))
          (mem_three_parts '。' '…' (((n + 5) / 6) * 2) pre post
            (fun x hx => (hpre x hx).2.1) (by decide) (fun x hx => (hpost x hx).2.1))
          (mem_three_parts '、' '…' (((n + 5) / 6) * 2) pre post
            (fun x hx => (hpre x hx).2.2.1) (by decide) (fun x hx => (hpost x hx).2.2.1))]
    · rw [runSub_pfree_id (fun c => c = '・') ellipsisRepl
          (pre ++ (List.replicate n '．' ++ post)) (by
          intro c hc
          have h := mem_three_parts '・' '．' n pre post
            (fun x hx => (hpre x hx).1) (by decide) (fun x hx => (hpost x hx).1) c hc
          simp [h]),
        runSub_pfree_id (fun c => c = '。') ellipsisRepl
          (pre ++ (List.replicate n '．' ++ post)) (by
          intro c hc
          have h := mem_three_parts '。' '．' n pre post
            (fun x hx => (hpre x hx).2.1) (by decide) (fun x hx => (hpost x hx).2.1) c hc
          simp [h]),
        runSub_pfree_id (fun c => c = '、') ellipsisRepl
          (pre ++ (List.replicate n '．' ++ post)) (by
          intro c hc
          have h := mem_three_parts '、' '．' n pre post
            (fun x hx => (hpre x hx).2.2.1) (by decide) (fun x hx => (hpost x hx).2.2.1) c hc
          simp [h]),
        ellipsis_fold_pass '．' n pre post hn
          (fun x hx => (hpre x hx).2.2.2) (fun x hx => (hpost x hx).2.2.2) hL hR,
        ellipsis_tail_passes (pre ++ (List.replicate (((n + 5) / 6) * 2) '…' ++ post))
          (mem_three_parts '。' '…' (((n + 5) / 6) * 2) pre post
            (fun x hx => (hpre x hx).2.1) (by decide) (fun x hx => (hpost x hx).2.1))
          (mem_three_parts '、' '…' (((n + 5) / 6) * 2) pre post
            (fun x hx => (hpre x hx).2.2.1) (by decide) (fun x hx => (hpost x hx).2.2.1))]
  · intro hch hn hdash
    rw [convertHorizontalEllipsis_eq]
    rcases hch with rfl | rfl
    · rw [ellipsis_keep_pass '・' n pre post hn
          (fun x hx => (hpre x hx).1) (fun x hx => (hpost x hx).1) hdash,
        runSub_pfree_id (fun c => c = '。') ellipsisRepl
          (pre ++ (List.replicate n '・' ++ post)) (by
          intro c hc
          have h := mem_three_parts '。' '・' n pre post
            (fun x hx => (hpre x hx).2.1) (by decide) (fun x hx => (hpost x hx).2.1) c hc
          simp [h]),
        runSub_pfree_id (fun c => c = '、') ellipsisRepl
          (pre ++ (List.replicate n '・' ++ post)) (by
          intro c hc
          have h := mem_three_parts '、' '・' n pre post
            (fun x hx => (hpre x hx).2.2.1) (by decide) (fun x hx => (hpost x hx).2.2.1) c hc
          simp [h]),
        runSub_pfree_id (fun c => c = '．') ellipsisRepl
          (pre ++ (List.replicate n '・' ++ post)) (by
          intro c hc
          have h := mem_three_parts '．' '・' n pre post
            (fun x hx => (hpre x hx).2.2.2) (by decide) (fun x hx => (hpost x hx).2.2.2) c hc
          simp [h]),
        ellipsis_tail_passes (pre ++ (List.replicate n '・' ++ post))
          (mem_three_parts '。' '・' n pre post
            (fun x hx => (hpre x hx).2.1) (by decide) (fun x hx => (hpost x hx).2.1))
          (mem_three_parts '、' '・' n pre post
            (fun x hx => (hpre x hx).2.2.1) (by decide) (fun x hx => (hpost x hx).2.2.1))]
    · rw [runSub_pfree_id (fun c => c = '・') ellipsisRepl
          (pre ++ (List.replicate n '．' ++ post)) (by
          intro c hc
          have h := mem_three_parts '・' '．' n pre post
            (fun x hx => (hpre x hx).1) (by decide) (fun x hx => (hpost x hx).1) c hc
          simp [h]),
        runSub_pfree_id (fun c => c = '。') ellipsisRepl
          (pre ++ (List.replicate n '．' ++ post)) (by
          intro c hc
          have h := mem_three_parts '。' '．' n pre post
            (fun x hx => (hpre x hx).2.1) (by decide) (fun x hx => (hpost x hx).2.1) c hc
          simp [h]),
        runSub_pfree_id (fun c => c = '、') ellipsisRepl
          (pre ++ (List.replicate n '．' ++ post)) (by
          intro c hc
          have h := mem_three_parts '、' '．' n pre post
            (fun x hx => (hpre x hx).2.2.1) (by decide) (fun x hx => (hpost x hx).2.2.1) c hc
          simp [h]),
        ellipsis_keep_pass '．' n pre post hn
          (fun x hx => (hpre x hx).2.2.2) (fun x hx => (hpost x hx).2.2.2) hdash,
        ellipsis_tail_passes (pre ++ (List.replicate n '．' ++ post))
          (mem_three_parts '。' '．' n pre post
            (fun x hx => (hpre x hx).2.1) (by decide) (fun x hx => (hpost x hx).2.1))
          (mem_three_parts '、' '．' n pre post
            (fun x hx => (hpre x hx).2.2.1) (by decide) (fun x hx => (hpost x hx).2.2.1))]

/-- Witness for C7: a maximal run of 7 `・` with non-dash neighbors folds to
4 `…`, and a dash-adjacent `・` run of 3 is untouched. -/
theorem convert_horizontal_ellipsis_spec_witness :
    convertHorizontalEllipsis (toL "あ" ++ (List.replicate 7 '・' ++ toL "い"))
      = toL "あ" ++ (List.replicate 4 '…' ++ toL "い")
    ∧ convertHorizontalEllipsis (toL "―" ++ (List.replicate 3 '・' ++ toL "い"))
      = toL "―" ++ (List.replicate 3 '・' ++ toL "い") :=
  ⟨(convert_horizontal_ellipsis_spec '・' 7 (toL "あ") (toL "い")
      (by decide) (by decide)).1 (by decide) (by decide) (by decide) (by decide),
   (convert_horizontal_ellipsis_spec '・' 3 (toL "―") (toL "い")
      (by decide) (by decide)).2 (by decide) (by decide) (by decide)⟩

/-- Claim C4 (amended): in `_pack_blank_lines`, a blank run of length 1 or 3
followed by a border line always emits exactly one blank line, but followed
by an ordinary non-blank line it emits one blank line only when the packed
output is still empty, a border line immediately preceded the run, or the
run has length 3 and the packed output does not already end in a blank line;
otherwise — in particular for a run of exactly one blank line between two
ordinary lines — it emits none. -/
theorem pack_blank_run_one_or_three (st : PackSt) (line : Str)
    (hb : st.blankRun = 1 ∨ st.blankRun = 3)
    (hline : stripHT line ≠ []) :
    (normalizeBorderLine line = none →
      (processLine st line).packed
        = st.packed
          ++ List.replicate
              (if st.packed = [] ∨ st.prevBorder = true
                  ∨ (st.blankRun = 3 ∧ st.packed.getLast? ≠ some ([] : Str))
                then 1 else 0) []
          ++ [rstripHT line])
    ∧ (∀ border, normalizeBorderLine line = some border →
        (processLine st line).packed
          = st.packed ++ [[]] ++ [List.replicate 4 '　' ++ border]) := by
  obtain ⟨packed, b, pb⟩ := st
  simp only at hb
  constructor
  · intro hnb
    simp only [processLine, if_neg hline, hnb]
    rcases hb with hb | hb <;> subst hb <;>
      by_cases hp : packed = [] <;>
      cases pb <;>
      by_cases hg : packed.getLast? = some ([] : Str) <;>
      simp [hp, hg, borderBlankCount]
  · intro border hb2
    simp only [processLine, if_neg hline, hb2]
    rcases hb with hb | hb <;> subst hb <;> simp [borderBlankCount]

/-- Witness for C4: a 3-blank run after the ordinary line `あ`, followed by
the ordinary line `い`, emits exactly one blank line. -/
theorem pack_blank_run_one_or_three_witness :
    ((processLine ⟨[toL "あ"], 3, false⟩ (toL "い")).packed
       = [toL "あ"]
         ++ List.replicate
             (if [toL "あ"] = ([] : List Str) ∨ false = true
                 ∨ (3 = 3 ∧ ([toL "あ"] : List Str).getLast? ≠ some ([] : Str))
               then 1 else 0) []
         ++ [rstripHT (toL "い")])
    ∧ (processLine ⟨[toL "あ"], 3, false⟩ (toL "い")).packed = [toL "あ", [], toL "い"] := by
  constructor
  · exact (pack_blank_run_one_or_three ⟨[toL "あ"], 3, false⟩ (toL "い")
      (by decide) (by decide)).1 (by decide)
  · decide

/-- Claim C9 (counterexample): the leading full-width space of `　あ`
survives `_convert_html_fragment_to_aozora` for the `title` kind: the final
`re.sub` passes trim only *trailing* whitespace (line ends and end of
string), so the output begins with whitespace. -/
theorem html_fragment_leading_space_not_stripped :
    convertHtmlFragmentToAozora (toL "　あ") TextKind.title = toL "　あ"
    ∧ (convertHtmlFragmentToAozora (toL "　あ") TextKind.title).head? = some '　'
    ∧ isPyWS '　' = true := by
  refine ⟨by decide, by decide, by decide⟩

theorem finalTrimZ_no_trailing_ws (s : Str) (c : Char)
    (h : (finalTrimZ s).getLast? = some c) : isPyWS c = false := by
  unfold finalTrimZ at h
  rw [List.getLast?_reverse] at h
  have h2 := List.head?_dropWhile_not isPyWS s.reverse
  rw [h] at h2
  simpa using h2

/-- Claim C9 (amended): the output of `_convert_html_fragment_to_aozora`
never *ends* in whitespace (so it never ends with blank lines either): the
final `re.sub(r'[　\s]+\Z', '', text)` strips every trailing whitespace
character.  Leading whitespace, however, is not stripped, as the separate
counterexample shows. -/
theorem convert_html_fragment_no_trailing_ws (value : Str) (tt : TextKind) (c : Char)
    (h : (convertHtmlFragmentToAozora value tt).getLast? = some c) :
    isPyWS c = false := by
  by_cases hv : value = []
  · simp [convertHtmlFragmentToAozora, hv] at h
  · simp only [convertHtmlFragmentToAozora, if_neg hv] at h
    exact finalTrimZ_no_trailing_ws _ c h

/-- Witness for C9: the `title` output for `あ。\n\n` ends in `。`, which is
not whitespace. -/
theorem convert_html_fragment_no_trailing_ws_witness :
    (convertHtmlFragmentToAozora (toL "あ。\n\n") TextKind.title).getLast? = some '。'
    ∧ isPyWS '。' = false :=
  ⟨by decide,
   convert_html_fragment_no_trailing_ws (toL "あ。\n\n") TextKind.title '。' (by decide)⟩

theorem splitNL_no_nl (l : Str) (h : '\n' ∉ l) : splitNL l = [l] := by
  induction l with
  | nil => rfl
  | cons c cs ih =>
    have hc : ¬(c = '\n') := fun hc => h (hc ▸ List.mem_cons_self c cs)
    simp only [splitNL, if_neg hc, ih (fun hm => h (List.mem_cons_of_mem c hm))]

theorem splitNL_append_no_nl (l : Str) (h : '\n' ∉ l) (rest : Str) :
    splitNL (l ++ '\n' :: rest) = l :: splitNL rest := by
  induction l with
  | nil => simp [splitNL]
  | cons c cs ih =>
    have hc : ¬(c = '\n') := fun hc => h (hc ▸ List.mem_cons_self c cs)
    simp only [List.cons_append, splitNL, if_neg hc, List.append_eq,
      ih (fun hm => h (List.mem_cons_of_mem c hm))]

/-- `'\n'.join` then `.split('\n')` restores a nonempty newline-free line
list. -/
theorem splitNL_joinNL (lines : List Str) (hne : lines ≠ [])
    (h : ∀ l ∈ lines, '\n' ∉ l) : splitNL (joinNL lines) = lines := by
  induction lines with
  | nil => exact absurd rfl hne
  | cons l ls ih =>
    cases ls with
    | nil =>
      simp only [joinNL]
      exact splitNL_no_nl l (h l (by simp))
    | cons l2 ls2 =>
      rw [show joinNL (l :: l2 :: ls2) = l ++ '\n' :: joinNL (l2 :: ls2) from rfl,
        splitNL_append_no_nl l (h l (by simp)) (joinNL (l2 :: ls2)),
        ih (by simp) (fun x hx => h x (by simp [hx]))]

/-- One `_pack_blank_lines` step on an ordinary line with no pending blank
run: the right-stripped line is appended and the state stays clean. -/
theorem processLine_ordinary (st : PackSt) (l : Str) (h1 : stripHT l ≠ [])
    (h2 : normalizeBorderLine l = none) (hb : st.blankRun = 0) :
    processLine st l = ⟨st.packed ++ [rstripHT l], 0, false⟩ := by
  obtain ⟨packed, b, pb⟩ := st
  simp only at hb
  subst hb
  simp [processLine, if_neg h1, h2]

theorem foldl_processLine_ordinary (lines : List Str) :
    ∀ (acc : List Str) (pb : Bool),
      (∀ l ∈ lines, stripHT l ≠ [] ∧ normalizeBorderLine l = none) →
      (lines.foldl processLine ⟨acc, 0, pb⟩).packed = acc ++ lines.map rstripHT
      ∧ (lines.foldl processLine ⟨acc, 0, pb⟩).blankRun = 0 := by
  induction lines with
  | nil =>
    intro acc pb _
    simp
  | cons l ls ih =>
    intro acc pb h
    rw [List.foldl_cons,
      processLine_ordinary ⟨acc, 0, pb⟩ l (h l (by simp)).1 (h l (by simp)).2 rfl]
    have h2 := ih (acc ++ [rstripHT l]) false (fun x hx => h x (by simp [hx]))
    simpa [List.append_assoc] using h2

theorem dropTrailingEmpties_id (ls : List Str) (h : ∀ l ∈ ls, l ≠ []) :
    dropTrailingEmpties ls = ls := by
  unfold dropTrailingEmpties
  have h2 : ls.reverse.dropWhile (fun l => l = []) = ls.reverse := by
    cases hrev : ls.reverse with
    | nil => rfl
    | cons x xs =>
      rw [List.dropWhile_cons]
      have hx : x ∈ ls := List.mem_reverse.mp (hrev ▸ List.mem_cons_self x xs)
      simp [h x hx]
  rw [h2, List.reverse_reverse]

theorem mem_joinNL (x : Char) (lines : List Str) (hx : x ∈ joinNL lines) :
    x = '\n' ∨ ∃ l ∈ lines, x ∈ l := by
  induction lines with
  | nil => simp [joinNL] at hx
  | cons l ls ih =>
    cases ls with
    | nil =>
      right
      exact ⟨l, by simp, by simpa [joinNL] using hx⟩
    | cons l2 ls2 =>
      rw [show joinNL (l :: l2 :: ls2) = l ++ '\n' :: joinNL (l2 :: ls2) from rfl] at hx
      rcases List.mem_append.mp hx with h | h
      · right
        exact ⟨l, by simp, h⟩
      · rcases List.mem_cons.mp h with h | h
        · left
          exact h
        · rcases ih h with h | ⟨l3, hl3, hxl3⟩
          · left
            exact h
          · right
            exact ⟨l3, by simp [hl3], hxl3⟩

/-- If some character of the pattern appears nowhere in `s`, the pattern
does not occur in `s`. -/
theorem occursIn_false_of_mem_all_ne (d : Char) (p : Str) (hd : d ∈ p) :
    ∀ (s : Str), (∀ x ∈ s, x ≠ d) → occursIn p s = false := by
  intro s
  induction s with
  | nil =>
    intro _
    cases p with
    | nil => simp at hd
    | cons a ps => simp [occursIn, List.isPrefixOf]
  | cons x cs ih =>
    intro h
    rw [occursIn_cons, Bool.or_eq_false_iff]
    refine ⟨?_, ih fun y hy => h y (by simp [hy])⟩
    by_contra hpre
    rw [Bool.not_eq_false] at hpre
    have hsub : p <+: x :: cs := List.isPrefixOf_iff_prefix.mp hpre
    exact h d (hsub.sublist.subset hd) rfl

/-- Claim C2 (amended): `_pack_blank_lines` is not idempotent in general
(see the separate counterexample), but on text whose lines are nonempty,
non-blank, non-border, already right-stripped, and free of `！`/`？` (so
the closing-bracket join passes are inert) it is the identity, and
therefore idempotent. -/
theorem pack_blank_lines_idempotent_on_plain (lines : List Str) (hne : lines ≠ [])
    (h : ∀ l ∈ lines, stripHT l ≠ [] ∧ normalizeBorderLine l = none ∧ rstripHT l = l
          ∧ '\n' ∉ l ∧ '！' ∉ l ∧ '？' ∉ l) :
    packBlankLines (joinNL lines) = joinNL lines
    ∧ packBlankLines (packBlankLines (joinNL lines)) = packBlankLines (joinNL lines) := by
  have hid : packBlankLines (joinNL lines) = joinNL lines := by
    have hfold := foldl_processLine_ordinary lines [] false
      (fun l hl => ⟨(h l hl).1, (h l hl).2.1⟩)
    have hmap : lines.map rstripHT = lines := by
      rw [List.map_congr_left (fun l hl => (h l hl).2.2.1)]
      simp
    have hstate : (lines.foldl processLine ⟨[], 0, false⟩).packed = lines := by
      rw [hfold.1, List.nil_append, hmap]
    have hlne : ∀ l ∈ lines, l ≠ [] := by
      intro l hl hnil
      exact (h l hl).1 (by rw [hnil]; rfl)
    have hbang : ∀ x ∈ joinNL lines, x ≠ '！' := by
      intro x hx hxe
      rcases mem_joinNL x lines hx with hnl | ⟨l, hl, hxl⟩
      · rw [hxe] at hnl
        exact absurd hnl (by decide)
      · exact (h l hl).2.2.2.2.1 (hxe ▸ hxl)
    have hqm : ∀ x ∈ joinNL lines, x ≠ '？' := by
      intro x hx hxe
      rcases mem_joinNL x lines hx with hnl | ⟨l, hl, hxl⟩
      · rw [hxe] at hnl
        exact absurd hnl (by decide)
      · exact (h l hl).2.2.2.2.2 (hxe ▸ hxl)
    show replaceStr (toL "\n？」") (toL "？」")
        (replaceStr (toL "\n！」") (toL "！」")
          (joinNL (dropTrailingEmpties
            ((splitNL (joinNL lines)).foldl processLine ⟨[], 0, false⟩).packed)))
      = joinNL lines
    rw [splitNL_joinNL lines hne (fun l hl => (h l hl).2.2.2.1), hstate,
      dropTrailingEmpties_id lines hlne,
      replaceStr_id_of_not_occurs (toL "\n！」") (toL "！」") (joinNL lines)
        (occursIn_false_of_mem_all_ne '！' (toL "\n！」") (by decide) (joinNL lines) hbang),
      replaceStr_id_of_not_occurs (toL "\n？」") (toL "？」") (joinNL lines)
        (occursIn_false_of_mem_all_ne '？' (toL "\n？」") (by decide) (joinNL lines) hqm)]
  refine ⟨hid, ?_⟩
  rw [hid]
  exact hid

/-- Witness for C2: two plain lines are a fixed point of
`_pack_blank_lines`, so packing them twice changes nothing. -/
theorem pack_blank_lines_idempotent_on_plain_witness :
    packBlankLines (joinNL [toL "あ", toL "い"]) = joinNL [toL "あ", toL "い"]
    ∧ packBlankLines (packBlankLines (joinNL [toL "あ", toL "い"]))
      = packBlankLines (joinNL [toL "あ", toL "い"]) :=
  pack_blank_lines_idempotent_on_plain [toL "あ", toL "い"] (by decide) (by decide)

/-!  ## Claim C1  -/

theorem stashEngGo_eq : ∀ (n : Nat) (acc : List Str) (s : Str),
    stashEngGo n acc s = (engStashed n acc.length s, acc ++ engSpans n s) := by
  intro n
  induction n with
  | zero =>
    intro acc s
    simp [stashEngGo, engStashed, engSpans]
  | succ n ih =>
    intro acc s
    match s with
    | [] => simp [stashEngGo, engStashed, engSpans]
    | c :: cs =>
      by_cases hc : isEngChar c = true
      · by_cases hs : (sentenceLike (c :: cs.takeWhile isEngChar)
            || longAsciiWord (c :: cs.takeWhile isEngChar)) = true
        · simp [stashEngGo, engStashed, engSpans, hc, hs, ih, List.append_assoc]
        · simp [stashEngGo, engStashed, engSpans, hc, hs, ih]
      · simp [stashEngGo, engStashed, engSpans, hc, ih]

theorem char_toNat_ofNat_high (m : Nat) (h1 : 0xdfff < m) (h2 : m < 0x110000) :
    (Char.ofNat m).toNat = m := by
  have hv : m.isValidChar := Or.inr ⟨h1, h2⟩
  rw [Char.ofNat, dif_pos hv]
  rfl

theorem engBlock_mid_ne (i j : Nat) (hi : i < 0x1600) (hj : j < 0x1600) (hij : i ≠ j) :
    Char.ofNat (engSentBase + i) ≠ Char.ofNat (engSentBase + j) := by
  intro h
  have h2 := congrArg Char.toNat h
  rw [char_toNat_ofNat_high (engSentBase + i) (by simp [engSentBase]; omega) (by simp [engSentBase]; omega),
    char_toNat_ofNat_high (engSentBase + j) (by simp [engSentBase]; omega) (by simp [engSentBase]; omega)] at h2
  simp [engSentBase] at h2
  exact hij h2

theorem engSentBase_char_ne_open (j : Nat) (hj : j < 0x1600) :
    Char.ofNat (engSentBase + j) ≠ engSentOpen := by
  intro h
  have h2 := congrArg Char.toNat h
  rw [char_toNat_ofNat_high (engSentBase + j) (by simp [engSentBase]; omega) (by simp [engSentBase]; omega)] at h2
  have h3 : engSentOpen.toNat = 0xE002 := rfl
  rw [h3] at h2
  simp [engSentBase] at h2
  omega

theorem pua_ne_engSentOpen (c : Char) (h : c.toNat < 0xE000 ∨ 0xF900 ≤ c.toNat) :
    c ≠ engSentOpen := by
  intro he
  rw [he] at h
  have h3 : engSentOpen.toNat = 0xE002 := rfl
  rcases h with h | h <;> omega

theorem alphaToZenkakuChar_ne_open (c : Char) (h : c.toNat < 0xE000 ∨ 0xF900 ≤ c.toNat) :
    alphaToZenkakuChar c ≠ engSentOpen := by
  unfold alphaToZenkakuChar
  by_cases h1 : 'a' ≤ c ∧ c ≤ 'z'
  · rw [if_pos h1]
    have hub : c.toNat ≤ 0x7A := h1.2
    intro he
    have h2 := congrArg Char.toNat he
    rw [char_toNat_ofNat_high (0xFF41 + c.toNat - 'a'.toNat) (by simp; omega) (by simp; omega),
      show engSentOpen.toNat = 0xE002 from rfl] at h2
    simp at h2
    omega
  · rw [if_neg h1]
    by_cases h2 : 'A' ≤ c ∧ c ≤ 'Z'
    · rw [if_pos h2]
      have hub : c.toNat ≤ 0x5A := h2.2
      intro he
      have h3 := congrArg Char.toNat he
      rw [char_toNat_ofNat_high (0xFF21 + c.toNat - 'A'.toNat) (by simp; omega) (by simp; omega),
        show engSentOpen.toNat = 0xE002 from rfl] at h3
      simp at h3
      omega
    · rw [if_neg h2]
      exact pua_ne_engSentOpen c h

theorem replaceGo_append_left_free (p r : Str) (a : Char) (hp : p.head? = some a) :
    ∀ (m : Nat) (g t : Str), (∀ x ∈ g, x ≠ a) → g.length + t.length ≤ m →
      replaceGo p r m (g ++ t) = g ++ replaceGo p r t.length t := by
  have hpne : p ≠ [] := by
    intro he
    rw [he] at hp
    simp at hp
  intro m
  induction m with
  | zero =>
    intro g t _ hn
    have hg : g = [] := List.eq_nil_of_length_eq_zero (by omega)
    have ht : t = [] := List.eq_nil_of_length_eq_zero (by omega)
    subst hg
    subst ht
    rfl
  | succ m ih =>
    intro g t hg hn
    match g with
    | [] =>
      simp only [List.nil_append]
      exact replaceGo_fuel_eq p r hpne (m + 1) t.length t (by simpa using hn) (Nat.le_refl _)
    | x :: g2 =>
      have hpre : ¬(p.isPrefixOf (x :: (g2 ++ t)) = true) := by
        match p, hp with
        | b :: ps, hp =>
          have hb : b = a := by simpa using hp
          have hx : x ≠ a := hg x (by simp)
          have hbx : (b == x) = false := by
            rw [hb]
            exact beq_eq_false_iff_ne.mpr fun he => hx he.symm
          simp [List.isPrefixOf, hbx]
      simp only [List.cons_append, replaceGo, List.append_eq, if_neg hpre]
      rw [ih g2 t (fun y hy => hg y (by simp [hy]))
        (by simp only [List.length_cons, List.length_append] at hn ⊢; omega)]

theorem replaceStr_append_left_free (p r : Str) (a : Char) (hp : p.head? = some a)
    (g t : Str) (hg : ∀ x ∈ g, x ≠ a) :
    replaceStr p r (g ++ t) = g ++ replaceStr p r t := by
  unfold replaceStr
  exact replaceGo_append_left_free p r a hp (g ++ t).length g t hg (by simp)

theorem replaceStr_self_prefix (p r t : Str) (hp : p ≠ []) :
    replaceStr p r (p ++ t) = r ++ replaceStr p r t := by
  match p, hp with
  | c :: ps, _ =>
    unfold replaceStr
    have hpre : (c :: ps).isPrefixOf (c :: (ps ++ t)) = true := by
      rw [List.isPrefixOf_iff_prefix]
      exact ⟨t, by simp⟩
    rw [show ((c :: ps) ++ t).length = (ps ++ t).length + 1 by simp]
    simp only [List.cons_append, replaceGo, List.append_eq, if_pos hpre]
    congr 1
    rw [show (c :: ps).length - 1 = ps.length by simp, List.drop_left]
    exact replaceGo_fuel_eq (c :: ps) r (by simp) (ps ++ t).length t.length t (by simp)
      (Nat.le_refl _)

theorem occursIn_cons_free (p : Str) (a : Char) (hp : p.head? = some a) (c : Char) (t : Str)
    (hc : c ≠ a) (ht : occursIn p t = false) : occursIn p (c :: t) = false := by
  rw [occursIn_cons, Bool.or_eq_false_iff]
  refine ⟨?_, ht⟩
  match p, hp with
  | b :: ps, hp =>
    have hb : b = a := by simpa using hp
    have hbc : (b == c) = false := by
      rw [hb]
      exact beq_eq_false_iff_ne.mpr fun he => hc he.symm
    simp [List.isPrefixOf, hbc]

theorem occursIn_append_free (p : Str) (a : Char) (hp : p.head? = some a) :
    ∀ (g t : Str), (∀ x ∈ g, x ≠ a) → occursIn p t = false → occursIn p (g ++ t) = false := by
  intro g
  induction g with
  | nil =>
    intro t _ ht
    simpa using ht
  | cons x g2 ih =>
    intro t hg ht
    rw [List.cons_append]
    exact occursIn_cons_free p a hp x (g2 ++ t) (hg x (by simp))
      (ih t (fun y hy => hg y (by simp [hy])) ht)

theorem alphabetToZenkaku_ne_open (run : Str)
    (h : ∀ y ∈ run, y.toNat < 0xE000 ∨ 0xF900 ≤ y.toNat) :
    ∀ x ∈ alphabetToZenkaku run, x ≠ engSentOpen := by
  intro x hx
  obtain ⟨y, hy, hxy⟩ := List.mem_map.mp hx
  rw [← hxy]
  exact alphaToZenkakuChar_ne_open y (h y hy)

theorem engBlock_not_occurs : ∀ (n : Nat) (s : Str) (i j : Nat), s.length ≤ n →
    (∀ c ∈ s, c.toNat < 0xE000 ∨ 0xF900 ≤ c.toNat) → i < j →
    j + (engSpans n s).length ≤ 0x1600 →
    occursIn (engBlock i) (engStashed n j s) = false := by
  intro n
  induction n with
  | zero =>
    intro s i j hn _ _ _
    have hs : s = [] := List.eq_nil_of_length_eq_zero (by omega)
    subst hs
    simp [engStashed, occursIn, engBlock, List.isPrefixOf]
  | succ n ih =>
    intro s i j hn hpriv hij hbound
    match s with
    | [] => simp [engStashed, occursIn, engBlock, List.isPrefixOf]
    | c :: cs =>
      have hcs_len : cs.length ≤ n := by
        simp only [List.length_cons] at hn
        omega
      have hrest_len : (cs.dropWhile isEngChar).length ≤ n :=
        le_trans (List.dropWhile_sublist isEngChar).length_le hcs_len
      have hrest_priv : ∀ x ∈ cs.dropWhile isEngChar, x.toNat < 0xE000 ∨ 0xF900 ≤ x.toNat :=
        fun x hx =>
          hpriv x (List.mem_cons_of_mem c ((List.dropWhile_sublist isEngChar).subset hx))
      have hrun_sub : ∀ y ∈ c :: cs.takeWhile isEngChar, y ∈ c :: cs := by
        intro y hy
        rcases List.mem_cons.mp hy with h | h
        · simp [h]
        · exact List.mem_cons_of_mem c ((List.takeWhile_sublist isEngChar).subset h)
      by_cases hc : isEngChar c = true
      · by_cases hs : (sentenceLike (c :: cs.takeWhile isEngChar)
            || longAsciiWord (c :: cs.takeWhile isEngChar)) = true
        · have heq : engStashed (n + 1) j (c :: cs)
              = engBlock j ++ engStashed n (j + 1) (cs.dropWhile isEngChar) := by
            simp [engStashed, hc, hs]
          have hsp : engSpans (n + 1) (c :: cs)
              = (c :: cs.takeWhile isEngChar) :: engSpans n (cs.dropWhile isEngChar) := by
            simp [engSpans, hc, hs]
          rw [hsp] at hbound
          simp only [List.length_cons] at hbound
          have hocc : occursIn (engBlock i) (engStashed n (j + 1) (cs.dropWhile isEngChar))
              = false :=
            ih (cs.dropWhile isEngChar) i (j + 1) hrest_len hrest_priv (by omega) (by omega)
          rw [heq]
          show occursIn (engBlock i)
            (engSentOpen :: Char.ofNat (engSentBase + j) :: engSentClose
              :: engStashed n (j + 1) (cs.dropWhile isEngChar)) = false
          rw [occursIn_cons, Bool.or_eq_false_iff]
          constructor
          · have hbi : (Char.ofNat (engSentBase + i) == Char.ofNat (engSentBase + j)) = false :=
              beq_eq_false_iff_ne.mpr (engBlock_mid_ne i j (by omega) (by omega) (by omega))
            simp [engBlock, List.isPrefixOf, hbi]
          · apply occursIn_cons_free (engBlock i) engSentOpen rfl _ _
              (engSentBase_char_ne_open j (by omega))
            apply occursIn_cons_free (engBlock i) engSentOpen rfl _ _ (by decide) hocc
        · have heq : engStashed (n + 1) j (c :: cs)
              = alphabetToZenkaku (c :: cs.takeWhile isEngChar)
                ++ engStashed n j (cs.dropWhile isEngChar) := by
            simp [engStashed, hc, hs]
          have hsp : engSpans (n + 1) (c :: cs) = engSpans n (cs.dropWhile isEngChar) := by
            simp [engSpans, hc, hs]
          rw [hsp] at hbound
          rw [heq]
          apply occursIn_append_free (engBlock i) engSentOpen rfl
          · exact alphabetToZenkaku_ne_open (c :: cs.takeWhile isEngChar)
              (fun y hy => hpriv y (hrun_sub y hy))
          · exact ih (cs.dropWhile isEngChar) i j hrest_len hrest_priv hij hbound
      · have heq : engStashed (n + 1) j (c :: cs) = c :: engStashed n j cs := by
          simp [engStashed, hc]
        have hsp : engSpans (n + 1) (c :: cs) = engSpans n cs := by
          simp [engSpans, hc]
        rw [hsp] at hbound
        rw [heq]
        exact occursIn_cons_free (engBlock i) engSentOpen rfl c _
          (pua_ne_engSentOpen c (hpriv c (by simp)))
          (ih cs i j hcs_len (fun x hx => hpriv x (by simp [hx])) hij hbound)

theorem rebuildFrom_nil (k : Nat) (t : Str) : rebuildFrom k [] t = t := rfl

theorem rebuildFrom_cons (k : Nat) (x : Str) (xs : List Str) (t : Str) :
    rebuildFrom k (x :: xs) t = rebuildFrom (k + 1) xs (replaceStr (engBlock k) x t) := rfl

theorem rebuildFrom_gap (xs : List Str) : ∀ (k : Nat) (g t : Str),
    (∀ x ∈ g, x ≠ engSentOpen) → rebuildFrom k xs (g ++ t) = g ++ rebuildFrom k xs t := by
  induction xs with
  | nil =>
    intro k g t _
    rfl
  | cons x xs ih =>
    intro k g t hg
    rw [rebuildFrom_cons, replaceStr_append_left_free (engBlock k) x engSentOpen rfl g t hg,
      ih (k + 1) g (replaceStr (engBlock k) x t) hg, rebuildFrom_cons]

/-- Rebuilding over the stashed text restores every protected span verbatim
in place. -/
theorem rebuild_engStashed : ∀ (n : Nat) (s : Str) (k : Nat), s.length ≤ n →
    (∀ c ∈ s, c.toNat < 0xE000 ∨ 0xF900 ≤ c.toNat) →
    k + (engSpans n s).length ≤ 0x1600 →
    rebuildFrom k (engSpans n s) (engStashed n k s) = engScan n s := by
  intro n
  induction n with
  | zero =>
    intro s k hn _ _
    have hs : s = [] := List.eq_nil_of_length_eq_zero (by omega)
    subst hs
    rfl
  | succ n ih =>
    intro s k hn hpriv hbound
    match s with
    | [] => rfl
    | c :: cs =>
      have hcs_len : cs.length ≤ n := by
        simp only [List.length_cons] at hn
        omega
      have hrest_len : (cs.dropWhile isEngChar).length ≤ n :=
        le_trans (List.dropWhile_sublist isEngChar).length_le hcs_len
      have hrest_priv : ∀ x ∈ cs.dropWhile isEngChar, x.toNat < 0xE000 ∨ 0xF900 ≤ x.toNat :=
        fun x hx =>
          hpriv x (List.mem_cons_of_mem c ((List.dropWhile_sublist isEngChar).subset hx))
      have hrun_sub : ∀ y ∈ c :: cs.takeWhile isEngChar, y ∈ c :: cs := by
        intro y hy
        rcases List.mem_cons.mp hy with h | h
        · simp [h]
        · exact List.mem_cons_of_mem c ((List.takeWhile_sublist isEngChar).subset h)
      have hrun_ne : ∀ y ∈ c :: cs.takeWhile isEngChar, y ≠ engSentOpen := fun y hy =>
        pua_ne_engSentOpen y (hpriv y (hrun_sub y hy))
      by_cases hc : isEngChar c = true
      · by_cases hs : (sentenceLike (c :: cs.takeWhile isEngChar)
            || longAsciiWord (c :: cs.takeWhile isEngChar)) = true
        · have heqS : engStashed (n + 1) k (c :: cs)
              = engBlock k ++ engStashed n (k + 1) (cs.dropWhile isEngChar) := by
            simp [engStashed, hc, hs]
          have heqP : engSpans (n + 1) (c :: cs)
              = (c :: cs.takeWhile isEngChar) :: engSpans n (cs.dropWhile isEngChar) := by
            simp [engSpans, hc, hs]
          have heqC : engScan (n + 1) (c :: cs)
              = (c :: cs.takeWhile isEngChar) ++ engScan n (cs.dropWhile isEngChar) := by
            simp [engScan, hc, hs]
          rw [heqP] at hbound
          simp only [List.length_cons] at hbound
          rw [heqS, heqP, heqC, rebuildFrom_cons,
            replaceStr_self_prefix (engBlock k) (c :: cs.takeWhile isEngChar)
              (engStashed n (k + 1) (cs.dropWhile isEngChar)) (by simp [engBlock]),
            replaceStr_id_of_not_occurs (engBlock k) (c :: cs.takeWhile isEngChar)
              (engStashed n (k + 1) (cs.dropWhile isEngChar))
              (engBlock_not_occurs n (cs.dropWhile isEngChar) k (k + 1) hrest_len hrest_priv
                (by omega) (by omega)),
            rebuildFrom_gap (engSpans n (cs.dropWhile isEngChar)) (k + 1)
              (c :: cs.takeWhile isEngChar) _ hrun_ne,
            ih (cs.dropWhile isEngChar) (k + 1) hrest_len hrest_priv (by omega)]
        · have heqS : engStashed (n + 1) k (c :: cs)
              = alphabetToZenkaku (c :: cs.takeWhile isEngChar)
                ++ engStashed n k (cs.dropWhile isEngChar) := by
            simp [engStashed, hc, hs]
          have heqP : engSpans (n + 1) (c :: cs) = engSpans n (cs.dropWhile isEngChar) := by
            simp [engSpans, hc, hs]
          have heqC : engScan (n + 1) (c :: cs)
              = alphabetToZenkaku (c :: cs.takeWhile isEngChar)
                ++ engScan n (cs.dropWhile isEngChar) := by
            simp [engScan, hc, hs]
          rw [heqP] at hbound
          rw [heqS, heqP, heqC,
            rebuildFrom_gap (engSpans n (cs.dropWhile isEngChar)) k
              (alphabetToZenkaku (c :: cs.takeWhile isEngChar)) _
              (alphabetToZenkaku_ne_open (c :: cs.takeWhile isEngChar)
                (fun y hy => hpriv y (hrun_sub y hy))),
            ih (cs.dropWhile isEngChar) k hrest_len hrest_priv hbound]
      · have heqS : engStashed (n + 1) k (c :: cs) = c :: engStashed n k cs := by
          simp [engStashed, hc]
        have heqP : engSpans (n + 1) (c :: cs) = engSpans n cs := by
          simp [engSpans, hc]
        have heqC : engScan (n + 1) (c :: cs) = c :: engScan n cs := by
          simp [engScan, hc]
        rw [heqP] at hbound
        rw [heqS, heqP, heqC,
          show (c :: engStashed n k cs) = [c] ++ engStashed n k cs from rfl,
          rebuildFrom_gap (engSpans n cs) k [c] _
            (by
              intro y hy
              rw [List.mem_singleton.mp hy]
              exact pua_ne_engSentOpen c (hpriv c (by simp))),
          ih cs k hcs_len (fun x hx => hpriv x (by simp [hx])) hbound]
        rfl

/-- Claim C1 (counterexample): the protected English span round trip fails
at the pipeline level.  For the `title` input `Hello world <br>あ` the
pipeline stashes the span `"Hello world "` (with its trailing space), but
the final line-end trim deletes that trailing space, so the stashed span
does not reappear verbatim in the output of
`_convert_html_fragment_to_aozora`. -/
theorem english_span_not_restored_verbatim :
    pipelineEnglishSpans (toL "Hello world <br>あ") TextKind.title = [toL "Hello world "]
    ∧ convertHtmlFragmentToAozora (toL "Hello world <br>あ") TextKind.title
        = toL "Hello world\nあ"
    ∧ occursIn (toL "Hello world ")
        (convertHtmlFragmentToAozora (toL "Hello world <br>あ") TextKind.title) = false := by
  refine ⟨by decide, by decide, by decide⟩

/-- Claim C1 (amended): the stash/rebuild pair itself round-trips.  On any
text free of private-use characters (codepoints U+E000 to U+F8FF, the area
holding the converter's sentinels; full-width forms such as `！` or `Ａ` at
U+FF01 and above are allowed), `_rebuild_english_sentences`
applied to the output of `_stash_english_sentences` puts every stashed
English span back verbatim, unchanged and in its original position (hence
in original order): the result is exactly the one-pass scan that keeps
protected spans and transliterates unprotected runs.  The pipeline-level
claim fails only because later passes (the line-end whitespace trims) may
still clip a restored span, as the separate counterexample shows. -/
theorem stash_rebuild_english_roundtrip (s : Str)
    (hpriv : ∀ c ∈ s, c.toNat < 0xE000 ∨ 0xF900 ≤ c.toNat)
    (hcount : (stashEnglishSentences s).2.length ≤ 0x1600) :
    rebuildEnglishSentences (stashEnglishSentences s).1 (stashEnglishSentences s).2
      = engScan s.length s := by
  have h0 := stashEngGo_eq s.length [] s
  have h1 : stashEnglishSentences s = (engStashed s.length 0 s, engSpans s.length s) := by
    unfold stashEnglishSentences
    rw [h0]
    simp
  rw [h1] at hcount ⊢
  have hr : rebuildEnglishSentences (engStashed s.length 0 s) (engSpans s.length s)
      = rebuildFrom 0 (engSpans s.length s) (engStashed s.length 0 s) := rfl
  rw [hr]
  exact rebuild_engStashed s.length s 0 (Nat.le_refl _) hpriv (by simpa using hcount)

/-- Witness for C1: on `です！ Hello world test` — which contains the
full-width `！` (U+FF01) — the span `" Hello world test"` is stashed and
rebuilt verbatim in place, giving back the input. -/
theorem stash_rebuild_english_roundtrip_witness :
    rebuildEnglishSentences (stashEnglishSentences (toL "です！ Hello world test")).1
        (stashEnglishSentences (toL "です！ Hello world test")).2
      = engScan (toL "です！ Hello world test").length (toL "です！ Hello world test")
    ∧ engScan (toL "です！ Hello world test").length (toL "です！ Hello world test")
      = toL "です！ Hello world test"
    ∧ (stashEnglishSentences (toL "です！ Hello world test")).2 = [toL " Hello world test"] :=
  ⟨stash_rebuild_english_roundtrip (toL "です！ Hello world test") (by decide) (by decide),
   by decide, by decide⟩
